import Mathlib

/-!
Verification of the EasyJSON core: the tolerant parsing cascade
(`parseFlexibleJson`), the loose object literal grammar
(`parseLooseObjectLiteral`, `splitTopLevel`, `sanitiseKey`), the tree
builder/serializer (`parseJsonStructure`, `getNodeString`) and the JSONL
emitter (`toJsonLines`), shallowly embedded from the page component source.

Host platform functions are treated as follows:
* `JSON.parse` and `JSON.stringify` are modelled by the executable
  `jsonParse` / `jsonStringify` below (ECMA-404 grammar; numbers are kept
  as exact decimal pairs `m * 10 ^ e` instead of IEEE doubles, strings are
  sequences of unicode scalars, so lone-surrogate escapes are rejected).
* `JSON5.parse` is an external library and is kept as an explicit function
  parameter `j5` of the embedded definitions.
* `Number(...)` conversion is modelled by the executable `jsNumber`
  (decimal, hex, octal and binary string numeric literals; the non-finite
  `Infinity` results, which the value model cannot hold, map to `none`).
-/

namespace EzJson

/-! ### Characters and small string utilities -/

/-- The double quote character. -/
def dblQuote : Char := Char.ofNat 34

/-- The single quote character. -/
def singleQuote : Char := Char.ofNat 39

/-- The backquote character. -/
def backQuote : Char := Char.ofNat 96

/-- The opening curly brace character. -/
def openBrace : Char := Char.ofNat 123

/-- The closing curly brace character. -/
def closeBrace : Char := Char.ofNat 125

/-- Whitespace recognized by the host `trim` (the common subset: space,
tab, newline, carriage return, vertical tab, form feed, no-break space and
the BOM). -/
def jsWsChar (c : Char) : Bool :=
  c = ' ' || c = '\t' || c = '\n' || c = '\r' || c.toNat = 11 || c.toNat = 12 ||
    c.toNat = 160 || c.toNat = 65279

/-- Trim `jsWsChar` whitespace from both ends of a character list. -/
def charTrim (l : List Char) : List Char :=
  ((l.dropWhile jsWsChar).reverse.dropWhile jsWsChar).reverse

/-- Model of the host `String.prototype.trim`. -/
def jsTrim (s : String) : String := String.mk (charTrim s.data)

/-- Does the second list start with the first? -/
def headMatches : List Char → List Char → Bool
  | [], _ => true
  | _ :: _, [] => false
  | p :: ps, c :: cs => p = c && headMatches ps cs

/-- Model of the host `String.prototype.startsWith`. -/
def strStartsWith (s p : String) : Bool := headMatches p.data s.data

/-- Model of the host `String.prototype.endsWith`. -/
def strEndsWith (s p : String) : Bool := headMatches p.data.reverse s.data.reverse

/-- Auxiliary splitter for `/\r?\n/`: a carriage return is only consumed
as part of the separator when a newline follows. The current chunk is
accumulated in reverse. -/
def splitCRLFAux : List Char → List Char → List (List Char)
  | [], cur => [cur.reverse]
  | c :: rest, cur =>
      if c = '\n' then
        (match cur with
          | '\r' :: t => t.reverse
          | _ => cur.reverse) :: splitCRLFAux rest []
      else splitCRLFAux rest (c :: cur)

/-- Model of the host `split(/\r?\n/)`. -/
def splitLines (s : String) : List String :=
  (splitCRLFAux s.data []).map String.mk

/-! ### The JSON value model -/

/-- A JSON primitive: null, boolean, number or string. Numbers are exact
decimals `m * 10 ^ e`. -/
inductive JSONPrimitive where
  | null : JSONPrimitive
  | bool (b : Bool) : JSONPrimitive
  | num (m : Int) (e : Int) : JSONPrimitive
  | str (s : String) : JSONPrimitive
  deriving DecidableEq, Repr

/-- The recursive JSON value: a primitive, an ordered array, or an object
as an insertion-ordered key/value list. -/
inductive JSONValue where
  | null : JSONValue
  | bool (b : Bool) : JSONValue
  | num (m : Int) (e : Int) : JSONValue
  | str (s : String) : JSONValue
  | arr (elems : List JSONValue) : JSONValue
  | obj (members : List (String × JSONValue)) : JSONValue

/-- Host object property assignment: if the key already exists its value
is replaced in place (the original position is kept), otherwise the pair
is appended. -/
def setKey : List (String × JSONValue) → String → JSONValue → List (String × JSONValue)
  | [], k, v => [(k, v)]
  | (k', v') :: rest, k, v =>
      if k' = k then (k, v) :: rest else (k', v') :: setKey rest k v

/-- Look a key up in an insertion-ordered object member list. -/
def lookupKey (m : List (String × JSONValue)) (k : String) : Option JSONValue :=
  (m.find? (fun p => p.1 == k)).map (·.2)

/-! ### Decimal digits -/

/-- One decimal digit as a character. -/
def digitChar (d : Nat) : Char := Char.ofNat (48 + d)

/-- Big-endian decimal digits of `n`, by fuel (enough fuel leaves the
result independent of it). -/
def natCharsAux : Nat → Nat → List Char
  | 0, _ => []
  | fuel + 1, n => if n = 0 then [] else natCharsAux fuel (n / 10) ++ [digitChar (n % 10)]

/-- Big-endian decimal representation of a natural number. -/
def natChars (n : Nat) : List Char :=
  if n = 0 then ['0'] else natCharsAux (n + 1) n

/-- Decimal representation of an integer. -/
def intChars (i : Int) : List Char :=
  if i < 0 then '-' :: natChars i.natAbs else natChars i.toNat

/-- Serialization of the model number `m * 10 ^ e`: plain decimal when the
exponent is zero, otherwise scientific notation (an injective rendering
that the strict grammar accepts; the host prints the shortest double
form, which re-parses to the same number). -/
def numChars (m e : Int) : List Char :=
  if e = 0 then intChars m else intChars m ++ 'e' :: intChars e

/-! ### String escaping (model of `JSON.stringify` on strings) -/

/-- Lower-case hex digit for `n < 16`. -/
def hexChar (n : Nat) : Char :=
  if n < 10 then Char.ofNat (48 + n) else Char.ofNat (87 + n)

/-- Escape one character the way `JSON.stringify` does. -/
def escChar (c : Char) : List Char :=
  if c = dblQuote then ['\\', dblQuote]
  else if c = '\\' then ['\\', '\\']
  else if c = '\n' then ['\\', 'n']
  else if c = '\r' then ['\\', 'r']
  else if c = '\t' then ['\\', 't']
  else if c.toNat = 8 then ['\\', 'b']
  else if c.toNat = 12 then ['\\', 'f']
  else if c.toNat < 32 then
    ['\\', 'u', '0', '0', hexChar (c.toNat / 16), hexChar (c.toNat % 16)]
  else [c]

/-- Escape a character list. -/
def escChars : List Char → List Char
  | [] => []
  | c :: rest => escChar c ++ escChars rest

/-- A JSON string literal for the given content characters. -/
def quoteChars (l : List Char) : List Char :=
  dblQuote :: escChars l ++ [dblQuote]

/-- Model of `JSON.stringify` restricted to primitives. -/
def primToString : JSONPrimitive → String
  | .null => "null"
  | .bool true => "true"
  | .bool false => "false"
  | .num m e => String.mk (numChars m e)
  | .str s => String.mk (quoteChars s.data)

/-- Join a list of strings with a separator (model of `Array.join`). -/
def joinSep (sep : String) : List String → String
  | [] => ""
  | [x] => x
  | x :: xs => x ++ sep ++ joinSep sep xs

mutual
/-- Model of the host `JSON.stringify` (compact form, no spaces). -/
def jsonStringify : JSONValue → String
  | .null => "null"
  | .bool true => "true"
  | .bool false => "false"
  | .num m e => String.mk (numChars m e)
  | .str s => String.mk (quoteChars s.data)
  | .arr l => "[" ++ joinSep "," (stringifyList l) ++ "]"
  | .obj ms => String.mk [openBrace] ++ joinSep "," (stringifyMembers ms) ++ String.mk [closeBrace]

/-- Elementwise `jsonStringify` over an array. -/
def stringifyList : List JSONValue → List String
  | [] => []
  | v :: rest => jsonStringify v :: stringifyList rest

/-- Member strings `"key":value` of an object. -/
def stringifyMembers : List (String × JSONValue) → List String
  | [] => []
  | (k, v) :: rest => (String.mk (quoteChars k.data) ++ ":" ++ jsonStringify v) :: stringifyMembers rest
end

/-! ### Model of the host `JSON.parse` (strict ECMA-404 grammar) -/

/-- JSON whitespace. -/
def isJsonWs (c : Char) : Bool := c = ' ' || c = '\t' || c = '\n' || c = '\r'

/-- Skip JSON whitespace. -/
def skipWs (cs : List Char) : List Char := cs.dropWhile isJsonWs

/-- Value of a hex digit character. -/
def hexVal (c : Char) : Option Nat :=
  if '0' ≤ c ∧ c ≤ '9' then some (c.toNat - 48)
  else if 'a' ≤ c ∧ c ≤ 'f' then some (c.toNat - 87)
  else if 'A' ≤ c ∧ c ≤ 'F' then some (c.toNat - 55)
  else none

/-- Simple escape sequences of the strict grammar. -/
def simpleEsc (e : Char) : Option Char :=
  if e = dblQuote then some dblQuote
  else if e = '\\' then some '\\'
  else if e = '/' then some '/'
  else if e = 'b' then some (Char.ofNat 8)
  else if e = 'f' then some (Char.ofNat 12)
  else if e = 'n' then some '\n'
  else if e = 'r' then some '\r'
  else if e = 't' then some '\t'
  else none

/-- Parse the body of a string literal after the opening quote, returning
the content and the rest after the closing quote. Unescaped control
characters are rejected; `\uXXXX` escapes for surrogate code units are
rejected (the model has no lone surrogates). -/
def parseStringBody : List Char → Option (List Char × List Char)
  | [] => none
  | c :: rest =>
      if c = dblQuote then some ([], rest)
      else if c = '\\' then
        match rest with
        | [] => none
        | e :: rest2 =>
            if e = 'u' then
              match rest2 with
              | h1 :: h2 :: h3 :: h4 :: rest3 =>
                  match hexVal h1, hexVal h2, hexVal h3, hexVal h4 with
                  | some a, some b, some c3, some d =>
                      let n := ((a * 16 + b) * 16 + c3) * 16 + d
                      if 0xD800 ≤ n ∧ n ≤ 0xDFFF then none
                      else
                        match parseStringBody rest3 with
                        | some (l, r) => some (Char.ofNat n :: l, r)
                        | none => none
                  | _, _, _, _ => none
              | _ => none
            else
              match simpleEsc e with
              | some ec =>
                  match parseStringBody rest2 with
                  | some (l, r) => some (ec :: l, r)
                  | none => none
              | none => none
      else if c.toNat < 32 then none
      else
        match parseStringBody rest with
        | some (l, r) => some (c :: l, r)
        | none => none

/-- Longest digit prefix and the rest. -/
def takeDigits (cs : List Char) : List Char × List Char :=
  (cs.takeWhile Char.isDigit, cs.dropWhile Char.isDigit)

/-- Numeric value of a big-endian digit string. -/
def digitsToNat (l : List Char) : Nat :=
  l.foldl (fun a c => a * 10 + (c.toNat - 48)) 0

/-- One or more digits as a natural number. -/
def natDigitsParse (cs : List Char) : Option (Nat × List Char) :=
  match takeDigits cs with
  | ([], _) => none
  | (ds, r) => some (digitsToNat ds, r)

/-- Exponent part after `e`/`E`: optional sign, then one or more digits. -/
def parseExpDigits (cs : List Char) : Option (Int × List Char) :=
  match cs with
  | [] => none
  | c :: rest =>
      if c = '+' then (natDigitsParse rest).map (fun p => ((p.1 : Int), p.2))
      else if c = '-' then (natDigitsParse rest).map (fun p => (-(p.1 : Int), p.2))
      else (natDigitsParse (c :: rest)).map (fun p => ((p.1 : Int), p.2))

/-- Optional exponent after mantissa `m` with `k` fractional digits. -/
def expPartTail (m : Nat) (k : Nat) (cs : List Char) : Option ((Nat × Int) × List Char) :=
  match cs with
  | [] => some ((m, -(k : Int)), [])
  | c :: rest =>
      if c = 'e' ∨ c = 'E' then
        (parseExpDigits rest).map (fun p => ((m, p.1 - (k : Int)), p.2))
      else some ((m, -(k : Int)), c :: rest)

/-- Fraction and exponent parts of a number whose integer part is `i`,
yielding mantissa and decimal exponent. -/
def parseNumTail (i : Nat) (cs : List Char) : Option ((Nat × Int) × List Char) :=
  match cs with
  | [] => some ((i, 0), [])
  | c :: rest =>
      if c = '.' then
        match takeDigits rest with
        | ([], _) => none
        | (ds, rest2) => expPartTail (i * 10 ^ ds.length + digitsToNat ds) ds.length rest2
      else expPartTail i 0 (c :: rest)

/-- Unsigned number: `0` (with no further integer digits) or a nonzero
leading digit followed by more digits, then fraction/exponent. -/
def parseNumMag (cs : List Char) : Option ((Nat × Int) × List Char) :=
  match cs with
  | [] => none
  | c :: rest =>
      if c = '0' then parseNumTail 0 rest
      else if c.isDigit then
        match takeDigits rest with
        | (ds, rest2) => parseNumTail (digitsToNat (c :: ds)) rest2
      else none

/-- A strict JSON number token. -/
def parseNumber (cs : List Char) : Option (JSONValue × List Char) :=
  match cs with
  | [] => none
  | c :: rest =>
      if c = '-' then
        (parseNumMag rest).map (fun p => (JSONValue.num (-(p.1.1 : Int)) p.1.2, p.2))
      else (parseNumMag (c :: rest)).map (fun p => (JSONValue.num (p.1.1 : Int) p.1.2, p.2))

mutual
/-- A strict JSON value, by fuel. -/
def parseVal : Nat → List Char → Option (JSONValue × List Char)
  | 0, _ => none
  | fuel + 1, cs =>
      match cs with
      | [] => none
      | c :: rest =>
          if c = dblQuote then
            match parseStringBody rest with
            | some (l, r) => some (.str (String.mk l), r)
            | none => none
          else if c = '[' then
            match skipWs rest with
            | ']' :: rest3 => some (.arr [], rest3)
            | rest2 =>
                match parseElems fuel rest2 with
                | some (vs, r) => some (.arr vs, r)
                | none => none
          else if c = openBrace then
            match skipWs rest with
            | c2 :: rest3 =>
                if c2 = closeBrace then some (.obj [], rest3)
                else
                  match parseMembers fuel [] (c2 :: rest3) with
                  | some (ms, r) => some (.obj ms, r)
                  | none => none
            | [] => none
          else if c = 'n' then
            match cs with
            | 'n' :: 'u' :: 'l' :: 'l' :: r => some (.null, r)
            | _ => none
          else if c = 't' then
            match cs with
            | 't' :: 'r' :: 'u' :: 'e' :: r => some (.bool true, r)
            | _ => none
          else if c = 'f' then
            match cs with
            | 'f' :: 'a' :: 'l' :: 's' :: 'e' :: r => some (.bool false, r)
            | _ => none
          else parseNumber cs

/-- Comma-separated array elements followed by `]`. -/
def parseElems : Nat → List Char → Option (List JSONValue × List Char)
  | 0, _ => none
  | fuel + 1, cs =>
      match parseVal fuel cs with
      | none => none
      | some (v, rest) =>
          match skipWs rest with
          | ',' :: rest2 =>
              (match parseElems fuel (skipWs rest2) with
                | some (vs, r) => some (v :: vs, r)
                | none => none)
          | ']' :: rest2 => some ([v], rest2)
          | _ => none

/-- Comma-separated object members followed by the closing brace,
assembled with host property-assignment semantics (`setKey`). -/
def parseMembers : Nat → List (String × JSONValue) → List Char → Option (List (String × JSONValue) × List Char)
  | 0, _, _ => none
  | fuel + 1, acc, cs =>
      match cs with
      | c :: rest =>
          if c = dblQuote then
            match parseStringBody rest with
            | none => none
            | some (kChars, rest2) =>
                match skipWs rest2 with
                | ':' :: rest3 =>
                    (match parseVal fuel (skipWs rest3) with
                      | none => none
                      | some (v, rest4) =>
                          let acc2 := setKey acc (String.mk kChars) v
                          match skipWs rest4 with
                          | ',' :: rest5 => parseMembers fuel acc2 (skipWs rest5)
                          | c5 :: rest5 =>
                              if c5 = closeBrace then some (acc2, rest5) else none
                          | [] => none)
                | _ => none
          else none
      | [] => none
end

/-- Model of the host `JSON.parse`: a single value with only whitespace
around it. -/
def jsonParse (s : String) : Option JSONValue :=
  match parseVal (s.length + 1) (skipWs s.data) with
  | some (v, rest) => if skipWs rest = [] then some v else none
  | none => none

/-! ### Model of the host `Number(...)` conversion -/

/-- Exponent tail of a decimal numeric string literal; the whole rest must
be consumed. `m` is the mantissa read so far and `k` the number of
fractional digits. -/
def jsExpTail (m : Nat) (k : Nat) (cs : List Char) : Option (Int × Int) :=
  match cs with
  | [] => some ((m : Int), -(k : Int))
  | 'e' :: rest =>
      (match parseExpDigits rest with
        | some (ex, []) => some ((m : Int), ex - (k : Int))
        | _ => none)
  | 'E' :: rest =>
      (match parseExpDigits rest with
        | some (ex, []) => some ((m : Int), ex - (k : Int))
        | _ => none)
  | _ => none

/-- Unsigned decimal string numeric literal: `digits [. digits] [exp]` or
`. digits [exp]` (leading zeros allowed, either side of the dot may be
empty but not both). -/
def jsDecimal (cs : List Char) : Option (Int × Int) :=
  match takeDigits cs with
  | (ip, r1) =>
      match r1 with
      | '.' :: r2 =>
          (match takeDigits r2 with
            | (fp, r3) =>
                if ip = [] ∧ fp = [] then none
                else jsExpTail (digitsToNat ip * 10 ^ fp.length + digitsToNat fp) fp.length r3)
      | _ => if ip = [] then none else jsExpTail (digitsToNat ip) 0 r1

/-- Value of one digit in base `b`, if valid. -/
def radixVal (b : Nat) (c : Char) : Option Nat :=
  match hexVal c with
  | some v => if v < b then some v else none
  | none => none

/-- Digits of a radix literal body, requiring full consumption. -/
def radixDigits (b : Nat) (acc : Nat) : List Char → Option Nat
  | [] => some acc
  | c :: rest =>
      match radixVal b c with
      | some v => radixDigits b (acc * b + v) rest
      | none => none

/-- Model of the host `Number(string)` conversion, returning the exact
decimal `(mantissa, exponent)` or `none` for NaN. The empty (trimmed)
string converts to `0`; hex/octal/binary literals are supported; the
non-finite `Infinity` family is not representable in the model and maps
to `none`. -/
def jsNumber (s : String) : Option (Int × Int) :=
  let t := (jsTrim s).data
  match t with
  | [] => some (0, 0)
  | '+' :: rest => jsDecimal rest
  | '-' :: rest => (jsDecimal rest).map (fun p => (-p.1, p.2))
  | '0' :: x :: rest =>
      if x = 'x' ∨ x = 'X' then
        (match rest with
          | [] => none
          | _ => (radixDigits 16 0 rest).map (fun n => ((n : Int), 0)))
      else if x = 'o' ∨ x = 'O' then
        (match rest with
          | [] => none
          | _ => (radixDigits 8 0 rest).map (fun n => ((n : Int), 0)))
      else if x = 'b' ∨ x = 'B' then
        (match rest with
          | [] => none
          | _ => (radixDigits 2 0 rest).map (fun n => ((n : Int), 0)))
      else jsDecimal t
  | _ => jsDecimal t

/-! ### The embedded repository code -/

/-- Which dialect of the cascade matched (source type `FlexibleSource`;
the constructors mirror `"json" | "jsonl" | "json5" | "loose-object"`). -/
inductive FlexibleSource where
  | json | jsonl | json5 | looseObject
  deriving DecidableEq, Repr

/-- Source type `FlexibleParseResult`: parsed data plus the dialect. -/
structure FlexibleParseResult where
  data : JSONValue
  source : FlexibleSource

/-- Source type `LooseObjectResult`. -/
inductive LooseObjectResult where
  | success (data : List (String × JSONValue)) : LooseObjectResult
  | failure : LooseObjectResult

/-- Quote characters recognized by the loose grammar. -/
def isQuoteChar (c : Char) : Bool :=
  c = dblQuote || c = singleQuote || c = backQuote

/-- The source's `.replace(/^['"`]/, "").replace(/['"`]$/, "")`: strip at
most one leading and one trailing quote character (independently). -/
def stripOuterQuotes (s : String) : String :=
  let l1 := match s.data with
    | c :: rest => if isQuoteChar c then rest else s.data
    | [] => []
  let l2 := match l1.getLast? with
    | some c => if isQuoteChar c then l1.dropLast else l1
    | none => l1
  String.mk l2

/-- Source `sanitiseKey`: trim, strip one layer of quote characters, fail
on empty. -/
def sanitiseKey (rawKey : String) : Option String :=
  let cleaned := stripOuterQuotes (jsTrim rawKey)
  if cleaned = "" then none else some cleaned

/-- Source `splitTopLevel`, one step per character. `prev` is the
previously seen character, `current` the segment being accumulated and
`parts` the segments already emitted. A comma at depth zero outside a
string literal emits the trimmed current segment; at the end the final
segment is emitted only if its trimmed form is non-empty. Depth is
floored at zero (`Math.max(depth - 1, 0)`; `Nat` subtraction already
saturates). -/
def splitTopLevelAux : List Char → Option Char → Nat → Bool → Option Char → List Char → List String → List String
  | [], _, _, _, _, current, parts =>
      let finalPart := charTrim current
      if finalPart = [] then parts else parts ++ [String.mk finalPart]
  | c :: rest, prev, depth, inString, stringChar, current, parts =>
      if inString then
        if some c = stringChar ∧ prev ≠ some '\\' then
          splitTopLevelAux rest (some c) depth false none (current ++ [c]) parts
        else
          splitTopLevelAux rest (some c) depth true stringChar (current ++ [c]) parts
      else if isQuoteChar c then
        splitTopLevelAux rest (some c) depth true (some c) (current ++ [c]) parts
      else if c = openBrace ∨ c = '[' ∨ c = '(' then
        splitTopLevelAux rest (some c) (depth + 1) false none (current ++ [c]) parts
      else if c = closeBrace ∨ c = ']' ∨ c = ')' then
        splitTopLevelAux rest (some c) (depth - 1) false none (current ++ [c]) parts
      else if c = ',' ∧ depth = 0 then
        splitTopLevelAux rest (some c) depth false none [] (parts ++ [String.mk (charTrim current)])
      else
        splitTopLevelAux rest (some c) depth false none (current ++ [c]) parts

/-- Source `splitTopLevel`: split on top-level commas only. -/
def splitTopLevel (input : String) : List String :=
  splitTopLevelAux input.data none 0 false none [] []

/-- First index of `:` in a segment (source `segment.indexOf(":")`). -/
def colonIdx (seg : String) : Option Nat := seg.data.findIdx? (· = ':')

/-- The source's `rawValue.replace(/,$/, "")`: drop one trailing comma
character if present. -/
def looseCleaned (rawValue : String) : String :=
  if strEndsWith rawValue "," then String.mk rawValue.data.dropLast else rawValue

/-- Interpretation of a non-empty raw value text in the loose grammar:
strict JSON, then JSON5 (the parameter `j5`), then `Number` conversion,
then the quote-stripped bare string. The raw value first loses one
trailing comma character if present. -/
def looseValue (jp j5 : String → Option JSONValue) (rawValue : String) : JSONValue :=
  let cleanedValue := looseCleaned rawValue
  match jp cleanedValue with
  | some v => v
  | none =>
      match j5 cleanedValue with
      | some v => v
      | none =>
          match jsNumber cleanedValue with
          | some p => .num p.1 p.2
          | none => .str (stripOuterQuotes cleanedValue)

/-- The key portion of a segment: the whole segment when it has no colon,
otherwise the text before the first colon. -/
def keyPortion (seg : String) : String :=
  match colonIdx seg with
  | none => seg
  | some i => String.mk (seg.data.take i)

/-- The per-segment loop of `parseLooseObjectLiteral`, accumulating the
result record. Empty segments are skipped; a segment with no colon maps
its sanitized key to null (failing the parse when sanitization fails);
otherwise the sanitized key maps to the interpreted value (null when the
trimmed value text is empty). -/
def looseSegs (jp j5 : String → Option JSONValue) : List String → List (String × JSONValue) → LooseObjectResult
  | [], acc => .success acc
  | seg :: rest, acc =>
      if seg = "" then looseSegs jp j5 rest acc
      else
        match colonIdx seg with
        | none =>
            (match sanitiseKey seg with
              | none => .failure
              | some k => looseSegs jp j5 rest (setKey acc k .null))
        | some i =>
            let rawKey := String.mk (seg.data.take i)
            match sanitiseKey rawKey with
            | none => .failure
            | some key =>
                let rawValue := jsTrim (String.mk (seg.data.drop (i + 1)))
                if rawValue = "" then looseSegs jp j5 rest (setKey acc key .null)
                else looseSegs jp j5 rest (setKey acc key (looseValue jp j5 rawValue))

/-- The trimmed interior of the braces: the source's
`trimmed.slice(1, -1).trim()` applied to the trimmed input. -/
def looseInner (input : String) : String :=
  jsTrim (String.mk (((jsTrim input).data.drop 1).dropLast))

/-- Source `parseLooseObjectLiteral`: brace-delimited, comma-separated
loose `key: value` / bare-key dialect. `jp` and `j5` stand for the host
`JSON.parse` and the external `JSON5.parse`. -/
def parseLooseObjectLiteral (jp j5 : String → Option JSONValue) (input : String) : LooseObjectResult :=
  let trimmed := jsTrim input
  if !(strStartsWith trimmed "\x7b") || !(strEndsWith trimmed "\x7d") then .failure
  else
    let inner := looseInner input
    if inner = "" then .success []
    else looseSegs jp j5 (splitTopLevel inner) []

/-- One line of the JSON-lines attempt: strict JSON, then JSON5, then the
loose object literal parser. -/
def parseLine (jp j5 : String → Option JSONValue) (line : String) : Option JSONValue :=
  match jp line with
  | some v => some v
  | none =>
      match j5 line with
      | some v => some v
      | none =>
          match parseLooseObjectLiteral jp j5 line with
          | .success d => some (.obj d)
          | .failure => none

/-- The per-line loop of the JSON-lines attempt; `none` as soon as one
line fails all three parsers. -/
def parseLinesLoop (jp j5 : String → Option JSONValue) : List String → Option (List JSONValue)
  | [] => some []
  | line :: rest =>
      match parseLine jp j5 line with
      | some v =>
          (match parseLinesLoop jp j5 rest with
            | some vs => some (v :: vs)
            | none => none)
      | none => none

/-- The non-empty trimmed lines of the input (source: split on `/\r?\n/`,
trim each line, keep the non-empty ones). -/
def flexLines (trimmed : String) : List String :=
  ((splitLines trimmed).map jsTrim).filter (fun line => line.length > 0)

/-- Source `parseFlexibleJson`: the dialect cascade. Strict JSON first;
else, when more than one non-empty line exists and every line parses, the
ordered JSON-lines sequence; else JSON5 on the whole trimmed input; else
the loose object literal parser; else an error. -/
def parseFlexibleJson (jp j5 : String → Option JSONValue) (input : String) : Except String FlexibleParseResult :=
  let trimmed := jsTrim input
  if trimmed = "" then .error "Add some JSON to get started."
  else
    match jp trimmed with
    | some v => .ok ⟨v, .json⟩
    | none =>
        let lines := flexLines trimmed
        let jsonlResult : Option (List JSONValue) :=
          if lines.length > 1 then parseLinesLoop jp j5 lines else none
        match jsonlResult with
        | some vs => .ok ⟨.arr vs, .jsonl⟩
        | none =>
            match j5 trimmed with
            | some v => .ok ⟨v, .json5⟩
            | none =>
                match parseLooseObjectLiteral jp j5 trimmed with
                | .success d => .ok ⟨.obj d, .looseObject⟩
                | .failure => .error "We couldn't understand the input."

/-! ### Tree builder and serializer -/

/-- The `type` tag of a tree node. -/
inductive NodeType where
  | object | array | string | number | boolean | null
  deriving DecidableEq, Repr

/-- Source `JsonNode`: a labeled tree node with an optional scalar value,
optional children and, for arrays, a length. -/
inductive JsonNode where
  | mk (key : String) (type : NodeType) (value : Option JSONPrimitive)
      (children : Option (List JsonNode)) (arrayLength : Option Nat) : JsonNode

/-- The `key` field of a node. -/
def JsonNode.key : JsonNode → String
  | .mk k _ _ _ _ => k

/-- The `type` field of a node. -/
def JsonNode.type : JsonNode → NodeType
  | .mk _ t _ _ _ => t

/-- The `value` field of a node. -/
def JsonNode.value : JsonNode → Option JSONPrimitive
  | .mk _ _ v _ _ => v

/-- The `children` field of a node. -/
def JsonNode.children : JsonNode → Option (List JsonNode)
  | .mk _ _ _ c _ => c

/-- The `arrayLength` field of a node. -/
def JsonNode.arrayLength : JsonNode → Option Nat
  | .mk _ _ _ _ n => n

mutual
/-- Source `parseJsonStructure`: build a tree node from a value (null,
array, object, string, number, boolean in the source's test order). -/
def parseJsonStructure : JSONValue → String → JsonNode
  | .null, key => .mk key .null (some .null) none none
  | .arr l, key => .mk key .array none (some (structList l 0)) (some l.length)
  | .obj ms, key => .mk key .object none (some (structMembers ms)) none
  | .str s, key => .mk key .string (some (.str s)) none none
  | .num m e, key => .mk key .number (some (.num m e)) none none
  | .bool b, key => .mk key .boolean (some (.bool b)) none none

/-- Children of an array node, keyed by the decimal index. -/
def structList : List JSONValue → Nat → List JsonNode
  | [], _ => []
  | x :: xs, i => parseJsonStructure x (String.mk (natChars i)) :: structList xs (i + 1)

/-- Children of an object node, keyed by the property names in order. -/
def structMembers : List (String × JSONValue) → List JsonNode
  | [] => []
  | (k, x) :: xs => parseJsonStructure x k :: structMembers xs
end

mutual
/-- Source `getNodeString`: render a node back to a single-line textual
form. Object nodes with children render as `{ "k": v, ... }`, array nodes
with children as `[v, ...]`, anything else as the JSON encoding of the
stored value (the source would yield the undefined value for a node with
neither, which the tree builder never produces). -/
def getNodeString (node : JsonNode) : String :=
  match node with
  | .mk _ .object _ (some children) _ =>
      String.mk [openBrace] ++ " " ++ joinSep ", " (memberStrings children) ++ " " ++ String.mk [closeBrace]
  | .mk _ .array _ (some children) _ =>
      "[" ++ joinSep ", " (childStrings children) ++ "]"
  | n =>
      match n.value with
      | some p => primToString p
      | none => "undefined"

/-- The `"key": value` member strings of an object node. -/
def memberStrings : List JsonNode → List String
  | [] => []
  | child :: rest =>
      (String.mk (quoteChars child.key.data) ++ ": " ++ getNodeString child) :: memberStrings rest

/-- The serialized children of an array node. -/
def childStrings : List JsonNode → List String
  | [] => []
  | child :: rest => getNodeString child :: childStrings rest
end

/-! ### JSONL emitter -/

/-- The host `JSON.stringify` viewed as fallible: it yields `undefined`
(modelled `none`) only for inputs outside the JSON value model
(undefined, functions, symbols), so on `JSONValue` it always succeeds. -/
def jsonStringifyChecked (v : JSONValue) : Option String := some (jsonStringify v)

/-- The per-element loop of `toJsonLines` over an array, tracking the
index for the error message. -/
def toLinesAux : List JSONValue → Nat → Except String (List String)
  | [], _ => .ok []
  | item :: rest, i =>
      match jsonStringifyChecked item with
      | some s =>
          (match toLinesAux rest (i + 1) with
            | .ok ls => .ok (s :: ls)
            | .error e => .error e)
      | none => .error ("Item at index " ++ String.mk (natChars i) ++ " cannot be represented as JSON.")

/-- Source `toJsonLines`: arrays become one JSON-encoded line per element
in order; other objects a single line; scalars and null a single line. -/
def toJsonLines (value : JSONValue) : Except String (List String) :=
  match value with
  | .arr items => toLinesAux items 0
  | .obj ms =>
      (match jsonStringifyChecked (.obj ms) with
        | some s => .ok [s]
        | none => .error "Unable to represent the provided object as JSON.")
  | v => .ok [jsonStringify v]

/-! ### General lemmas -/

/-- The model `JSON.parse` rejects the empty string. -/
theorem jsonParse_empty : jsonParse "" = none := rfl

/-- Claim C1: for every input string whose trimmed form is valid strict
JSON — i.e. the model `JSON.parse` decodes it to some value `v` —
`parseFlexibleJson` returns exactly that decoded value tagged with the
strict-JSON dialect, whatever the JSON5 parser does (the looser dialects
are not consulted). -/
theorem parseFlexibleJson_strict_json (j5 : String → Option JSONValue) (input : String)
    (v : JSONValue) (h : jsonParse (jsTrim input) = some v) :
    parseFlexibleJson jsonParse j5 input = .ok ⟨v, .json⟩ := by
  have hne : ¬ (jsTrim input = "") := by
    intro he
    rw [he, jsonParse_empty] at h
    exact Option.noConfusion h
  simp only [parseFlexibleJson]
  rw [if_neg hne, h]

/-- Witness for C1 at a concrete strict-JSON input. -/
theorem parseFlexibleJson_strict_json_witness :
    parseFlexibleJson jsonParse (fun _ => none) " \x7b\"a\": 1\x7d " =
      .ok ⟨.obj [("a", .num 1 0)], .json⟩ :=
  parseFlexibleJson_strict_json (fun _ => none) " \x7b\"a\": 1\x7d "
    (.obj [("a", .num 1 0)]) rfl

/-- The array loop of `toJsonLines` encodes every element, in order. -/
theorem toLinesAux_ok (l : List JSONValue) : ∀ i, toLinesAux l i = .ok (l.map jsonStringify) := by
  induction l with
  | nil => intro i; rfl
  | cons x xs ih => intro i; simp [toLinesAux, jsonStringifyChecked, ih]

/-- Claim C8: `toJsonLines` on an array emits exactly one JSON-encoded
line per element in order (no element of a parsed value can fail to
encode, so the index-naming error branch is unreachable); on a non-array
object it emits a single line encoding the whole object; on a bare scalar
or null a single line with its JSON encoding; and on
`[{"a":1},{"a":2}]` it yields exactly the two lines `{"a":1}` and
`{"a":2}`. -/
theorem toJsonLines_spec :
    (∀ l, toJsonLines (.arr l) = .ok (l.map jsonStringify)) ∧
    (∀ ms, toJsonLines (.obj ms) = .ok [jsonStringify (.obj ms)]) ∧
    (toJsonLines .null = .ok ["null"]) ∧
    (∀ b, toJsonLines (.bool b) = .ok [jsonStringify (.bool b)]) ∧
    (∀ m e, toJsonLines (.num m e) = .ok [jsonStringify (.num m e)]) ∧
    (∀ s, toJsonLines (.str s) = .ok [jsonStringify (.str s)]) ∧
    toJsonLines (.arr [.obj [("a", .num 1 0)], .obj [("a", .num 2 0)]]) =
      .ok ["\x7b\"a\":1\x7d", "\x7b\"a\":2\x7d"] :=
  ⟨fun l => toLinesAux_ok l 0, fun _ => rfl, rfl, fun _ => rfl, fun _ _ => rfl, fun _ => rfl, rfl⟩

/-- Claim C10: the splitter keeps interior empty segments
(`split("a,,b") = ["a", "", "b"]`), and the loose parser skips empty
segments, so consecutive top-level commas inside the braces do not cause
failure and only the non-empty segments contribute bindings. -/
theorem splitTopLevel_interior_empty :
    splitTopLevel "a,,b" = ["a", "", "b"] ∧
    (∀ j5, parseLooseObjectLiteral jsonParse j5 "\x7ba: 1,, b: 2\x7d" =
      .success [("a", .num 1 0), ("b", .num 2 0)]) :=
  ⟨rfl, fun _ => rfl⟩

/-- Claim C4: in the loose parser, a segment with no colon becomes a bare
key mapped to null (failing the whole parse when sanitization yields
none); a value text on which strict JSON, JSON5 and `Number` conversion
all fail falls back to the text with at most one layer of
leading/trailing quote characters stripped, as a bare string; and
`parseLooseObject("{ name: Ada, active }")` succeeds with the mapping
`name ↦ "Ada", active ↦ null`. -/
theorem parseLooseObjectLiteral_bare_key_and_fallback :
    (∀ (jp j5 : String → Option JSONValue) (seg : String) (rest : List String)
        (acc : List (String × JSONValue)), seg ≠ "" → colonIdx seg = none →
        (sanitiseKey seg = none → looseSegs jp j5 (seg :: rest) acc = .failure) ∧
        (∀ k, sanitiseKey seg = some k →
          looseSegs jp j5 (seg :: rest) acc = looseSegs jp j5 rest (setKey acc k .null))) ∧
    (∀ (jp j5 : String → Option JSONValue) (rawValue : String),
        jp (looseCleaned rawValue) = none → j5 (looseCleaned rawValue) = none →
        jsNumber (looseCleaned rawValue) = none →
        looseValue jp j5 rawValue = .str (stripOuterQuotes (looseCleaned rawValue))) ∧
    (∀ j5, j5 "Ada" = none →
        parseLooseObjectLiteral jsonParse j5 "\x7b name: Ada, active \x7d" =
          .success [("name", .str "Ada"), ("active", .null)]) := by
  refine ⟨?_, ?_, ?_⟩
  · intro jp j5 seg rest acc hseg hcolon
    constructor
    · intro hsan
      simp [looseSegs, hseg, hcolon, hsan]
    · intro k hsan
      simp [looseSegs, hseg, hcolon, hsan]
  · intro jp j5 rawValue h1 h2 h3
    simp only [looseValue, looseCleaned] at h1 h2 h3 ⊢
    rw [h1, h2, h3]
  · intro j5 h5
    have hv : looseValue jsonParse j5 "Ada" = .str "Ada" := by
      show (match j5 "Ada" with
            | some v => v
            | none =>
                match jsNumber "Ada" with
                | some p => JSONValue.num p.1 p.2
                | none => .str (stripOuterQuotes "Ada")) = .str "Ada"
      rw [h5]
      rfl
    show looseSegs jsonParse j5 ["name: Ada", "active"] [] = _
    show looseSegs jsonParse j5 ["active"] (setKey [] "name" (looseValue jsonParse j5 "Ada")) = _
    rw [hv]
    rfl

/-- Witness for C4 at concrete segments and the concrete example. -/
theorem parseLooseObjectLiteral_bare_key_and_fallback_witness :
    looseSegs jsonParse (fun _ => none) ["active"] [] =
      looseSegs jsonParse (fun _ => none) [] (setKey [] "active" .null) ∧
    looseValue jsonParse (fun _ => none) "Ada" = .str "Ada" ∧
    parseLooseObjectLiteral jsonParse (fun _ => none) "\x7b name: Ada, active \x7d" =
      .success [("name", .str "Ada"), ("active", .null)] :=
  ⟨(parseLooseObjectLiteral_bare_key_and_fallback.1 jsonParse (fun _ => none) "active" []
      [] (by decide) rfl).2 "active" rfl,
    parseLooseObjectLiteral_bare_key_and_fallback.2.1 jsonParse (fun _ => none) "Ada"
      rfl rfl rfl,
    parseLooseObjectLiteral_bare_key_and_fallback.2.2 (fun _ => none) rfl⟩

/-- The segment loop fails exactly when some non-empty segment's key
portion sanitizes to none; value interpretation is total and never
contributes a failure. -/
theorem looseSegs_failure_iff (jp j5 : String → Option JSONValue) :
    ∀ (segs : List String) (acc : List (String × JSONValue)),
      looseSegs jp j5 segs acc = .failure ↔
        ∃ seg ∈ segs, seg ≠ "" ∧ sanitiseKey (keyPortion seg) = none := by
  intro segs
  induction segs with
  | nil => intro acc; simp [looseSegs]
  | cons seg rest ih =>
    intro acc
    by_cases hseg : seg = ""
    · subst hseg
      simp [looseSegs, ih]
    · cases hcolon : colonIdx seg with
      | none =>
        cases hsan : sanitiseKey seg with
        | none => simp [looseSegs, hseg, hcolon, hsan, keyPortion]
        | some k => simp [looseSegs, hseg, hcolon, hsan, keyPortion, ih]
      | some i =>
        cases hsan : sanitiseKey (String.mk (seg.data.take i)) with
        | none => simp [looseSegs, hseg, hcolon, hsan, keyPortion]
        | some key =>
          by_cases hrv : jsTrim (String.mk (seg.data.drop (i + 1))) = "" <;>
            simp [looseSegs, hseg, hcolon, hsan, keyPortion, hrv, ih]

/-- Claim C5: the loose parser fails exactly when the trimmed input does
not both start with an opening and end with a closing brace, or some
non-empty segment's key portion sanitizes to none; in every other case it
succeeds, an empty interior yielding the empty mapping. -/
theorem parseLooseObjectLiteral_failure_characterization
    (jp j5 : String → Option JSONValue) (input : String) :
    (parseLooseObjectLiteral jp j5 input = .failure ↔
      (¬ (strStartsWith (jsTrim input) "\x7b" ∧ strEndsWith (jsTrim input) "\x7d")) ∨
        ∃ seg ∈ splitTopLevel (looseInner input),
          seg ≠ "" ∧ sanitiseKey (keyPortion seg) = none) ∧
    ((strStartsWith (jsTrim input) "\x7b" ∧ strEndsWith (jsTrim input) "\x7d") →
      looseInner input = "" → parseLooseObjectLiteral jp j5 input = .success []) := by
  constructor
  · by_cases hs : strStartsWith (jsTrim input) "\x7b"
    · by_cases he : strEndsWith (jsTrim input) "\x7d"
      · by_cases hin : looseInner input = ""
        · rw [hin]
          simp [parseLooseObjectLiteral, hs, he, hin,
            show splitTopLevel "" = [] from rfl]
        · simp [parseLooseObjectLiteral, hs, he, hin, looseSegs_failure_iff]
      · simp [parseLooseObjectLiteral, hs, he]
    · simp [parseLooseObjectLiteral, hs]
  · intro hbraces hin
    simp [parseLooseObjectLiteral, hbraces.1, hbraces.2, hin]

/-- Witness for C5: a sanitize-to-none key makes the parse fail, and an
empty interior succeeds with the empty mapping. -/
theorem parseLooseObjectLiteral_failure_characterization_witness :
    parseLooseObjectLiteral jsonParse (fun _ => none) "\x7b\"\": 1\x7d" = .failure ∧
    parseLooseObjectLiteral jsonParse (fun _ => none) " \x7b \x7d " = .success [] :=
  ⟨(parseLooseObjectLiteral_failure_characterization jsonParse (fun _ => none)
        "\x7b\"\": 1\x7d").1.mpr
      (Or.inr ⟨"\"\": 1", by decide, by decide, rfl⟩),
    (parseLooseObjectLiteral_failure_characterization jsonParse (fun _ => none)
        " \x7b \x7d ").2 (by decide) rfl⟩

/-- Setting a key and looking it up yields the set value. -/
theorem lookupKey_setKey_self (m : List (String × JSONValue)) (k : String) (v : JSONValue) :
    lookupKey (setKey m k v) k = some v := by
  induction m with
  | nil => simp [setKey, lookupKey]
  | cons p rest ih =>
    obtain ⟨k', v'⟩ := p
    by_cases h : k' = k
    · subst h; simp [setKey, lookupKey]
    · simp only [setKey, if_neg h, lookupKey]
      rw [List.find?_cons_of_neg _ (by simpa using h)]
      exact ih

/-- Setting a different key does not change a lookup. -/
theorem lookupKey_setKey_other (m : List (String × JSONValue)) (k k' : String) (v : JSONValue)
    (h : k' ≠ k) : lookupKey (setKey m k' v) k = lookupKey m k := by
  induction m with
  | nil =>
    simp only [setKey, lookupKey]
    rw [List.find?_cons_of_neg _ (by simpa using h)]
  | cons p rest ih =>
    obtain ⟨k0, v0⟩ := p
    by_cases h0 : k0 = k'
    · subst h0
      simp only [setKey, lookupKey, if_true]
      rw [List.find?_cons_of_neg _ (by simpa using h),
        List.find?_cons_of_neg _ (by simpa using h)]
    · simp only [setKey, if_neg h0, lookupKey]
      by_cases hk : k0 = k
      · subst hk
        rw [List.find?_cons_of_pos _ (by simp), List.find?_cons_of_pos _ (by simp)]
      · rw [List.find?_cons_of_neg _ (by simpa using hk),
          List.find?_cons_of_neg _ (by simpa using hk)]
        exact ih

/-- The binding a segment contributes to the loose mapping: none for an
empty segment (and for a failing one, which the success hypothesis of the
theorems below excludes), otherwise the sanitized key with its derived
value. -/
def segEntry (jp j5 : String → Option JSONValue) (seg : String) : Option (String × JSONValue) :=
  if seg = "" then none
  else
    match colonIdx seg with
    | none => (sanitiseKey seg).map (fun k => (k, JSONValue.null))
    | some i =>
        (sanitiseKey (String.mk (seg.data.take i))).map (fun key =>
          if jsTrim (String.mk (seg.data.drop (i + 1))) = "" then (key, JSONValue.null)
          else (key, looseValue jp j5 (jsTrim (String.mk (seg.data.drop (i + 1))))))

/-- One step of assembling the loose mapping from a segment's binding. -/
def segStep (jp j5 : String → Option JSONValue) (a : List (String × JSONValue)) (seg : String) :
    List (String × JSONValue) :=
  match segEntry jp j5 seg with
  | some (k, v) => setKey a k v
  | none => a

/-- A successful segment loop computes the fold of the per-segment
bindings over host property assignment. -/
theorem looseSegs_success_fold (jp j5 : String → Option JSONValue) :
    ∀ (segs : List String) (acc m : List (String × JSONValue)),
      looseSegs jp j5 segs acc = .success m → m = segs.foldl (segStep jp j5) acc := by
  intro segs
  induction segs with
  | nil => intro acc m h; simpa [looseSegs] using h.symm
  | cons seg rest ih =>
    intro acc m h
    by_cases hseg : seg = ""
    · subst hseg
      simp only [looseSegs] at h
      simpa [segStep, segEntry] using ih _ _ (by simpa using h)
    · cases hcolon : colonIdx seg with
      | none =>
        cases hsan : sanitiseKey seg with
        | none => simp [looseSegs, hseg, hcolon, hsan] at h
        | some k =>
          simp only [looseSegs, hseg, hcolon, hsan, if_neg hseg] at h
          simpa [segStep, segEntry, hseg, hcolon, hsan] using ih _ _ h
      | some i =>
        cases hsan : sanitiseKey (String.mk (seg.data.take i)) with
        | none => simp [looseSegs, hseg, hcolon, hsan] at h
        | some key =>
          by_cases hrv : jsTrim (String.mk (seg.data.drop (i + 1))) = ""
          · simp only [looseSegs, hseg, hcolon, hsan, if_neg hseg, hrv, if_pos rfl] at h
            simpa [segStep, segEntry, hseg, hcolon, hsan, hrv] using ih _ _ (by simpa [hrv] using h)
          · simp only [looseSegs, hseg, hcolon, hsan, if_neg hseg] at h
            rw [if_neg hrv] at h
            simpa [segStep, segEntry, hseg, hcolon, hsan, hrv] using ih _ _ h

/-- Looking up a key in the assembled fold finds the value of the last
segment that bound it, or falls back to the accumulator. -/
theorem lookupKey_foldl_segStep (jp j5 : String → Option JSONValue) :
    ∀ (segs : List String) (acc : List (String × JSONValue)) (k : String),
      lookupKey (segs.foldl (segStep jp j5) acc) k =
        match ((segs.filterMap (segEntry jp j5)).reverse.find? (fun p => p.1 == k)) with
        | some p => some p.2
        | none => lookupKey acc k := by
  intro segs
  induction segs with
  | nil => intro acc k; simp
  | cons seg rest ih =>
    intro acc k
    cases hent : segEntry jp j5 seg with
    | none => simp [List.foldl_cons, segStep, hent, ih]
    | some p =>
      obtain ⟨k0, v0⟩ := p
      simp only [List.foldl_cons, segStep, hent, List.filterMap_cons, List.reverse_cons, ih]
      rw [List.find?_append]
      cases hfind : (rest.filterMap (segEntry jp j5)).reverse.find? (fun p => p.1 == k) with
      | some q => simp [hfind]
      | none =>
        simp only [hfind, Option.orElse_none, Option.none_orElse, List.find?]
        by_cases hk : k0 = k
        · subst hk
          simp [lookupKey_setKey_self]
        · rw [show ((k0, v0).1 == k) = false from by simpa using hk]
          simp [lookupKey_setKey_other _ _ _ _ hk]

/-- The per-segment bindings of a loose-object input: for each non-empty
segment of the interior, its sanitized key and derived value. -/
def looseBindings (jp j5 : String → Option JSONValue) (input : String) : List (String × JSONValue) :=
  (splitTopLevel (looseInner input)).filterMap (segEntry jp j5)

/-- Claim C9 (implicit): when several segments produce the same sanitized
key the parse still succeeds, and the resulting mapping binds the key to
the value derived from the last such segment — later segments silently
overwrite earlier bindings; in particular `{a: 1, a: 2}` yields the
single binding `a ↦ 2`. -/
theorem parseLooseObjectLiteral_last_wins :
    (∀ (jp j5 : String → Option JSONValue) (input : String) (m : List (String × JSONValue))
        (k : String) (p : String × JSONValue),
      parseLooseObjectLiteral jp j5 input = .success m →
      (looseBindings jp j5 input).reverse.find? (fun q => q.1 == k) = some p →
      lookupKey m k = some p.2) ∧
    (∀ j5, parseLooseObjectLiteral jsonParse j5 "\x7ba: 1, a: 2\x7d" =
      .success [("a", .num 2 0)]) := by
  constructor
  · intro jp j5 input m k p hsucc hfind
    simp only [parseLooseObjectLiteral] at hsucc
    split at hsucc
    · exact LooseObjectResult.noConfusion hsucc
    · split at hsucc
      · rename_i hin
        unfold looseBindings at hfind
        rw [hin, show splitTopLevel "" = [] from rfl] at hfind
        simp at hfind
      · have hm := looseSegs_success_fold jp j5 _ _ _ hsucc
        subst hm
        rw [lookupKey_foldl_segStep]
        unfold looseBindings at hfind
        rw [hfind]
  · intro j5
    rfl

/-- Witness for C9 at the concrete duplicate-key input. -/
theorem parseLooseObjectLiteral_last_wins_witness :
    lookupKey [("a", JSONValue.num 2 0)] "a" = some (JSONValue.num 2 0) ∧
    parseLooseObjectLiteral jsonParse (fun _ => none) "\x7ba: 1, a: 2\x7d" =
      .success [("a", .num 2 0)] :=
  ⟨parseLooseObjectLiteral_last_wins.1 jsonParse (fun _ => none) "\x7ba: 1, a: 2\x7d"
      [("a", .num 2 0)] "a" ("a", .num 2 0) (parseLooseObjectLiteral_last_wins.2 _) rfl,
    parseLooseObjectLiteral_last_wins.2 (fun _ => none)⟩

/-- Claim C2: when the whole trimmed input is not valid strict JSON and
it splits into more than one non-empty trimmed line, then (a) if every
line parses under the per-line cascade (strict JSON, then JSON5, then the
loose parser — `parseLine`), the result is the ordered sequence of
per-line values with dialect json-lines, and (b) if some line fails all
three (`parseLinesLoop` returns none), the json-lines path is abandoned
and the cascade continues on the whole trimmed input: JSON5, then the
loose parser, then the error. -/
theorem parseFlexibleJson_json_lines (jp j5 : String → Option JSONValue) (input : String)
    (hjp : jp (jsTrim input) = none)
    (hlen : (flexLines (jsTrim input)).length > 1) :
    (∀ vs, parseLinesLoop jp j5 (flexLines (jsTrim input)) = some vs →
      parseFlexibleJson jp j5 input = .ok ⟨.arr vs, .jsonl⟩) ∧
    (parseLinesLoop jp j5 (flexLines (jsTrim input)) = none →
      parseFlexibleJson jp j5 input =
        match j5 (jsTrim input) with
        | some v => .ok ⟨v, .json5⟩
        | none =>
            match parseLooseObjectLiteral jp j5 (jsTrim input) with
            | .success d => .ok ⟨.obj d, .looseObject⟩
            | .failure => .error "We couldn't understand the input.") := by
  have hne : ¬ (jsTrim input = "") := by
    intro he
    rw [he] at hlen
    exact absurd hlen (by decide)
  constructor
  · intro vs hloop
    simp only [parseFlexibleJson, if_neg hne, hjp]
    rw [if_pos hlen, hloop]
  · intro hloop
    simp only [parseFlexibleJson, if_neg hne, hjp]
    rw [if_pos hlen, hloop]

/-- Witness for C2 at the concrete two-line input of the specification. -/
theorem parseFlexibleJson_json_lines_witness :
    parseFlexibleJson jsonParse (fun _ => none) "\x7b\"a\":1\x7d\n\x7b\"a\":2\x7d" =
      .ok ⟨.arr [.obj [("a", .num 1 0)], .obj [("a", .num 2 0)]], .jsonl⟩ :=
  (parseFlexibleJson_json_lines jsonParse (fun _ => none) "\x7b\"a\":1\x7d\n\x7b\"a\":2\x7d"
      rfl (by decide)).1 [.obj [("a", .num 1 0)], .obj [("a", .num 2 0)]] rfl

/-- Structural induction for the nested value type, with element-wise
hypotheses for arrays and objects. -/
theorem JSONValue.inductionOn {P : JSONValue → Prop}
    (hnull : P .null) (hbool : ∀ b, P (.bool b)) (hnum : ∀ m e, P (.num m e))
    (hstr : ∀ s, P (.str s))
    (harr : ∀ l, (∀ v ∈ l, P v) → P (.arr l))
    (hobj : ∀ l, (∀ kv ∈ l, P kv.2) → P (.obj l)) : ∀ v, P v := by
  have key : ∀ (n : Nat) (v : JSONValue), sizeOf v ≤ n → P v := by
    intro n
    induction n with
    | zero =>
      intro v hv
      exfalso
      cases v <;> simp at hv
    | succ n ih =>
      intro v hv
      cases v with
      | null => exact hnull
      | bool b => exact hbool b
      | num m e => exact hnum m e
      | str s => exact hstr s
      | arr l =>
        refine harr l (fun x hx => ih x ?_)
        have hm := List.sizeOf_lt_of_mem hx
        simp only [JSONValue.arr.sizeOf_spec] at hv
        omega
      | obj l =>
        refine hobj l (fun kv hkv => ih kv.2 ?_)
        have h1 := List.sizeOf_lt_of_mem hkv
        have h2 : sizeOf kv.2 < sizeOf kv := by
          obtain ⟨a, b⟩ := kv
          simp
        simp only [JSONValue.obj.sizeOf_spec] at hv
        omega
  intro v
  exact key (sizeOf v) v le_rfl

mutual
/-- Every node of a tree: the root and recursively all nodes below it. -/
def allNodes : JsonNode → List JsonNode
  | .mk k t v (some l) a => .mk k t v (some l) a :: allNodesList l
  | .mk k t v none a => [.mk k t v none a]

/-- All nodes of a list of trees. -/
def allNodesList : List JsonNode → List JsonNode
  | [] => []
  | n :: rest => allNodes n ++ allNodesList rest
end

/-- A node carries a scalar value. -/
def valuePresent (n : JsonNode) : Prop := n.value.isSome = true

/-- A node carries a non-empty child list. -/
def childrenPopulated (n : JsonNode) : Prop := ∃ l, n.children = some l ∧ l ≠ []

/-- The Tree Node shape invariant: exactly one of value present, children
populated, or neither — the neither case being an empty object or array —
holds; value and children are never both populated; and `arrayLength` is
present exactly on array nodes. -/
def nodeOk (n : JsonNode) : Prop :=
  ((valuePresent n ∧ ¬ childrenPopulated n) ∨ (¬ valuePresent n ∧ childrenPopulated n) ∨
    (¬ valuePresent n ∧ ¬ childrenPopulated n ∧ n.children = some [] ∧
      (n.type = .object ∨ n.type = .array))) ∧
  (¬ (valuePresent n ∧ childrenPopulated n)) ∧
  (n.arrayLength.isSome = true ↔ n.type = .array)

/-- Children built from an empty list are the empty list. -/
theorem structList_eq_nil_iff (l : List JSONValue) (i : Nat) : structList l i = [] ↔ l = [] := by
  cases l <;> simp [structList]

/-- Children built from an empty member list are the empty list. -/
theorem structMembers_eq_nil_iff (ms : List (String × JSONValue)) :
    structMembers ms = [] ↔ ms = [] := by
  cases ms with
  | nil => simp [structMembers]
  | cons p rest => obtain ⟨k, x⟩ := p; simp [structMembers]

/-- A node among the array children's nodes comes from some element. -/
theorem mem_allNodesList_structList (n : JsonNode) :
    ∀ (l : List JSONValue) (i : Nat), n ∈ allNodesList (structList l i) →
      ∃ x ∈ l, ∃ key, n ∈ allNodes (parseJsonStructure x key) := by
  intro l
  induction l with
  | nil => intro i h; simp [structList, allNodesList] at h
  | cons x rest ih =>
    intro i h
    simp only [structList, allNodesList, List.mem_append] at h
    rcases h with h | h
    · exact ⟨x, by simp, _, h⟩
    · obtain ⟨y, hy, key, hkey⟩ := ih (i + 1) h
      exact ⟨y, by simp [hy], key, hkey⟩

/-- A node among the object children's nodes comes from some member. -/
theorem mem_allNodesList_structMembers (n : JsonNode) :
    ∀ (ms : List (String × JSONValue)), n ∈ allNodesList (structMembers ms) →
      ∃ kv ∈ ms, n ∈ allNodes (parseJsonStructure kv.2 kv.1) := by
  intro ms
  induction ms with
  | nil => intro h; simp [structMembers, allNodesList] at h
  | cons kv rest ih =>
    obtain ⟨k, x⟩ := kv
    intro h
    simp only [structMembers, allNodesList, List.mem_append] at h
    rcases h with h | h
    · exact ⟨(k, x), by simp, h⟩
    · obtain ⟨kv2, hkv2, hmem⟩ := ih h
      exact ⟨kv2, by simp [hkv2], hmem⟩

/-- Claim C7: every node of the tree built by `parseJsonStructure` — the
root and all descendants — satisfies the Tree Node shape invariant
`nodeOk`. -/
theorem parseJsonStructure_nodeOk (v : JSONValue) :
    ∀ (k : String) (n : JsonNode), n ∈ allNodes (parseJsonStructure v k) → nodeOk n := by
  induction v using JSONValue.inductionOn with
  | hnull =>
    intro k n hn
    simp only [parseJsonStructure, allNodes, List.mem_singleton] at hn
    subst hn
    simp [nodeOk, valuePresent, childrenPopulated, JsonNode.value, JsonNode.children,
      JsonNode.type, JsonNode.arrayLength]
  | hbool b =>
    intro k n hn
    simp only [parseJsonStructure, allNodes, List.mem_singleton] at hn
    subst hn
    simp [nodeOk, valuePresent, childrenPopulated, JsonNode.value, JsonNode.children,
      JsonNode.type, JsonNode.arrayLength]
  | hnum m e =>
    intro k n hn
    simp only [parseJsonStructure, allNodes, List.mem_singleton] at hn
    subst hn
    simp [nodeOk, valuePresent, childrenPopulated, JsonNode.value, JsonNode.children,
      JsonNode.type, JsonNode.arrayLength]
  | hstr s =>
    intro k n hn
    simp only [parseJsonStructure, allNodes, List.mem_singleton] at hn
    subst hn
    simp [nodeOk, valuePresent, childrenPopulated, JsonNode.value, JsonNode.children,
      JsonNode.type, JsonNode.arrayLength]
  | harr l ihl =>
    intro k n hn
    simp only [parseJsonStructure, allNodes, List.mem_cons] at hn
    rcases hn with rfl | hn
    · refine ⟨?_, ?_, ?_⟩
      · by_cases hl : l = []
        · subst hl
          refine Or.inr (Or.inr ?_)
          simp [valuePresent, childrenPopulated, JsonNode.value, JsonNode.children,
            JsonNode.type, structList]
        · refine Or.inr (Or.inl ?_)
          refine ⟨by simp [valuePresent, JsonNode.value], ?_⟩
          exact ⟨structList l 0, by simp [JsonNode.children],
            fun he => hl ((structList_eq_nil_iff l 0).mp he)⟩
      · intro ⟨hv, _⟩
        simp [valuePresent, JsonNode.value] at hv
      · simp [JsonNode.arrayLength, JsonNode.type]
    · obtain ⟨x, hx, key, hkey⟩ := mem_allNodesList_structList n l 0 hn
      exact ihl x hx key n hkey
  | hobj ms ihm =>
    intro k n hn
    simp only [parseJsonStructure, allNodes, List.mem_cons] at hn
    rcases hn with rfl | hn
    · refine ⟨?_, ?_, ?_⟩
      · by_cases hm : ms = []
        · subst hm
          refine Or.inr (Or.inr ?_)
          simp [valuePresent, childrenPopulated, JsonNode.value, JsonNode.children,
            JsonNode.type, structMembers]
        · refine Or.inr (Or.inl ?_)
          refine ⟨by simp [valuePresent, JsonNode.value], ?_⟩
          exact ⟨structMembers ms, by simp [JsonNode.children],
            fun he => hm ((structMembers_eq_nil_iff ms).mp he)⟩
      · intro ⟨hv, _⟩
        simp [valuePresent, JsonNode.value] at hv
      · simp [JsonNode.arrayLength, JsonNode.type]
    · obtain ⟨kv, hkv, hmem⟩ := mem_allNodesList_structMembers n ms hn
      exact ihm kv hkv kv.1 n hmem

/-- Witness for C7 at a concrete value and node. -/
theorem parseJsonStructure_nodeOk_witness : nodeOk (parseJsonStructure (.arr []) "root") :=
  parseJsonStructure_nodeOk (.arr []) "root" (parseJsonStructure (.arr []) "root")
    (List.mem_cons_self _ _)

/-! ### The declarative splitter of the specification (for C6) -/

/-- The scan state of the Top-Level Splitter as the specification
describes it: string-literal mode with its quote character, the
bracket/brace/paren depth, and the previous character (for the
backslash-suppressed string exit). -/
structure SplitScanState where
  inString : Bool
  stringChar : Option Char
  depth : Nat
  prev : Option Char

/-- Modelled from the spec: one scan step. String mode is exited on a
matching quote not preceded by a backslash; a quote enters string mode;
opening brackets increment and closing brackets decrement (floored at
zero) the depth. -/
def splitScanStep (st : SplitScanState) (c : Char) : SplitScanState :=
  if st.inString then
    if some c = st.stringChar ∧ st.prev ≠ some '\\' then ⟨false, none, st.depth, some c⟩
    else ⟨true, st.stringChar, st.depth, some c⟩
  else if isQuoteChar c then ⟨true, some c, st.depth, some c⟩
  else if c = openBrace ∨ c = '[' ∨ c = '(' then ⟨false, none, st.depth + 1, some c⟩
  else if c = closeBrace ∨ c = ']' ∨ c = ')' then ⟨false, none, st.depth - 1, some c⟩
  else ⟨false, none, st.depth, some c⟩

/-- Modelled from the spec: a split point is a comma at depth zero
outside any string literal. -/
def isTopLevelComma (st : SplitScanState) (c : Char) : Prop :=
  st.inString = false ∧ c = ',' ∧ st.depth = 0

instance (st : SplitScanState) (c : Char) : Decidable (isTopLevelComma st c) := by
  unfold isTopLevelComma; infer_instance

/-- Modelled from the spec: the raw chunks between top-level commas
(always at least one chunk; a trailing comma leaves a final empty
chunk). -/
def specChunks : List Char → SplitScanState → List (List Char)
  | [], _ => [[]]
  | c :: rest, st =>
      if isTopLevelComma st c then [] :: specChunks rest (splitScanStep st c)
      else
        match specChunks rest (splitScanStep st c) with
        | h :: t => (c :: h) :: t
        | [] => [[c]]

/-- Drop a final empty segment, keeping interior empties. -/
def dropTrailingEmptyStr : List String → List String
  | [] => []
  | [x] => if x = "" then [] else [x]
  | x :: y :: t => x :: dropTrailingEmptyStr (y :: t)

/-- Prepend pending characters onto the first chunk. -/
def mergeFirst (cur : List Char) : List (List Char) → List (List Char)
  | [] => [cur]
  | h :: t => (cur ++ h) :: t

/-- Modelled from the spec: split at top-level commas, trim every
segment, and drop an empty trailing segment. -/
def splitTopLevelSpec (input : String) : List String :=
  dropTrailingEmptyStr ((specChunks input.data ⟨false, none, 0, none⟩).map
    (fun l => String.mk (charTrim l)))

/-- The chunk list is never empty. -/
theorem specChunks_ne_nil (cs : List Char) (st : SplitScanState) : specChunks cs st ≠ [] := by
  cases cs with
  | nil => simp [specChunks]
  | cons c rest =>
    simp only [specChunks]
    split
    · simp
    · split <;> simp

/-- A string made of characters is empty exactly when the list is. -/
theorem mk_eq_empty_iff (l : List Char) : String.mk l = "" ↔ l = [] := by
  constructor
  · intro h
    have := congrArg String.data h
    simpa using this
  · intro h
    subst h
    rfl

/-- Merging into a non-empty chunk list with no pending characters is the
identity. -/
theorem mergeFirst_nil_of_ne (l : List (List Char)) (h : l ≠ []) : mergeFirst [] l = l := by
  cases l with
  | nil => exact absurd rfl h
  | cons a t => simp [mergeFirst]

/-- Dropping the trailing empty commutes with a cons onto a non-empty
tail. -/
theorem dropTrailingEmptyStr_cons_of_ne_nil (x : String) (l : List String) (h : l ≠ []) :
    dropTrailingEmptyStr (x :: l) = x :: dropTrailingEmptyStr l := by
  cases l with
  | nil => exact absurd rfl h
  | cons y t => rfl

/-- A non-split character moves from the chunk structure into the pending
prefix. -/
theorem mergeFirst_specChunks_step (c : Char) (rest : List Char) (st : SplitScanState)
    (cur : List Char) (h : ¬ isTopLevelComma st c) :
    mergeFirst cur (specChunks (c :: rest) st) =
      mergeFirst (cur ++ [c]) (specChunks rest (splitScanStep st c)) := by
  simp only [specChunks, if_neg h]
  cases hch : specChunks rest (splitScanStep st c) with
  | nil => exact absurd hch (specChunks_ne_nil _ _)
  | cons h0 t =>
    simp only [mergeFirst]
    conv_lhs => rw [List.append_cons]

/-- The accumulator form of the source splitter computes the declarative
split: already-emitted parts, then the pending prefix merged into the
remaining chunks, each trimmed, with an empty trailing segment
dropped. -/
theorem splitTopLevelAux_eq_spec :
    ∀ (cs : List Char) (prev : Option Char) (depth : Nat) (inString : Bool)
      (stringChar : Option Char) (current : List Char) (parts : List String),
      splitTopLevelAux cs prev depth inString stringChar current parts =
        parts ++ dropTrailingEmptyStr
          ((mergeFirst current (specChunks cs ⟨inString, stringChar, depth, prev⟩)).map
            (fun l => String.mk (charTrim l))) := by
  intro cs
  induction cs with
  | nil =>
    intro prev depth inString stringChar current parts
    simp only [splitTopLevelAux, specChunks, mergeFirst, List.append_nil, List.map,
      dropTrailingEmptyStr]
    by_cases h : charTrim current = []
    · rw [if_pos h, if_pos ((mk_eq_empty_iff _).mpr h), List.append_nil]
    · rw [if_neg h, if_neg (fun he => h ((mk_eq_empty_iff _).mp he))]
  | cons c rest ih =>
    intro prev depth inString stringChar current parts
    by_cases h1 : inString = true
    · have hcm : ¬ isTopLevelComma ⟨inString, stringChar, depth, prev⟩ c := by
        simp [isTopLevelComma, h1]
      by_cases h2 : some c = stringChar ∧ prev ≠ some '\\'
      · rw [show splitTopLevelAux (c :: rest) prev depth inString stringChar current parts =
            splitTopLevelAux rest (some c) depth false none (current ++ [c]) parts from by
          simp [splitTopLevelAux, h1, h2]]
        rw [ih, mergeFirst_specChunks_step _ _ _ _ hcm,
          show splitScanStep ⟨inString, stringChar, depth, prev⟩ c =
            ⟨false, none, depth, some c⟩ from by simp [splitScanStep, h1, h2]]
      · rw [show splitTopLevelAux (c :: rest) prev depth inString stringChar current parts =
            splitTopLevelAux rest (some c) depth true stringChar (current ++ [c]) parts from by
          simp [splitTopLevelAux, h1, h2]]
        rw [ih, mergeFirst_specChunks_step _ _ _ _ hcm,
          show splitScanStep ⟨inString, stringChar, depth, prev⟩ c =
            ⟨true, stringChar, depth, some c⟩ from by simp [splitScanStep, h1, h2]]
    · have h1' : inString = false := by simpa using h1
      subst h1'
      by_cases hq : isQuoteChar c = true
      · have hcm : ¬ isTopLevelComma ⟨false, stringChar, depth, prev⟩ c := by
          have : ¬ (c = ',') := by
            intro hc
            subst hc
            exact absurd hq (by decide)
          simp [isTopLevelComma, this]
        rw [show splitTopLevelAux (c :: rest) prev depth false stringChar current parts =
            splitTopLevelAux rest (some c) depth true (some c) (current ++ [c]) parts from by
          simp [splitTopLevelAux, hq]]
        rw [ih, mergeFirst_specChunks_step _ _ _ _ hcm,
          show splitScanStep ⟨false, stringChar, depth, prev⟩ c =
            ⟨true, some c, depth, some c⟩ from by simp [splitScanStep, hq]]
      · by_cases hop : c = openBrace ∨ c = '[' ∨ c = '('
        · have hcm : ¬ isTopLevelComma ⟨false, stringChar, depth, prev⟩ c := by
            have : ¬ (c = ',') := by
              intro hc
              subst hc
              rcases hop with h | h | h <;> exact absurd (congrArg Char.toNat h) (by decide)
            simp [isTopLevelComma, this]
          rw [show splitTopLevelAux (c :: rest) prev depth false stringChar current parts =
              splitTopLevelAux rest (some c) (depth + 1) false none (current ++ [c]) parts from by
            simp [splitTopLevelAux, hq, hop]]
          rw [ih, mergeFirst_specChunks_step _ _ _ _ hcm,
            show splitScanStep ⟨false, stringChar, depth, prev⟩ c =
              ⟨false, none, depth + 1, some c⟩ from by simp [splitScanStep, hq, hop]]
        · by_cases hcl : c = closeBrace ∨ c = ']' ∨ c = ')'
          · have hcm : ¬ isTopLevelComma ⟨false, stringChar, depth, prev⟩ c := by
              have : ¬ (c = ',') := by
                intro hc
                subst hc
                rcases hcl with h | h | h <;> exact absurd (congrArg Char.toNat h) (by decide)
              simp [isTopLevelComma, this]
            rw [show splitTopLevelAux (c :: rest) prev depth false stringChar current parts =
                splitTopLevelAux rest (some c) (depth - 1) false none (current ++ [c]) parts from by
              simp [splitTopLevelAux, hq, hop, hcl]]
            rw [ih, mergeFirst_specChunks_step _ _ _ _ hcm,
              show splitScanStep ⟨false, stringChar, depth, prev⟩ c =
                ⟨false, none, depth - 1, some c⟩ from by simp [splitScanStep, hq, hop, hcl]]
          · by_cases hc : c = ',' ∧ depth = 0
            · have hcm : isTopLevelComma ⟨false, stringChar, depth, prev⟩ c :=
                ⟨rfl, hc.1, hc.2⟩
              rw [show splitTopLevelAux (c :: rest) prev depth false stringChar current parts =
                  splitTopLevelAux rest (some c) depth false none []
                    (parts ++ [String.mk (charTrim current)]) from by
                obtain ⟨hc1, hc2⟩ := hc
                subst hc1
                subst hc2
                rfl]
              rw [ih]
              rw [show specChunks (c :: rest) ⟨false, stringChar, depth, prev⟩ =
                  [] :: specChunks rest (splitScanStep ⟨false, stringChar, depth, prev⟩ c) from by
                simp [specChunks, hcm]]
              rw [show splitScanStep ⟨false, stringChar, depth, prev⟩ c =
                  ⟨false, none, depth, some c⟩ from by
                simp [splitScanStep, hq, hop, hcl]]
              rw [mergeFirst_nil_of_ne _ (specChunks_ne_nil _ _)]
              rw [show mergeFirst current ([] :: specChunks rest ⟨false, none, depth, some c⟩) =
                  current :: specChunks rest ⟨false, none, depth, some c⟩ from by
                simp [mergeFirst]]
              rw [List.map_cons,
                dropTrailingEmptyStr_cons_of_ne_nil _ _
                  (by simp [specChunks_ne_nil])]
              simp
            · have hcm : ¬ isTopLevelComma ⟨false, stringChar, depth, prev⟩ c := by
                simp only [isTopLevelComma]
                intro h3
                exact hc ⟨h3.2.1, h3.2.2⟩
              rw [show splitTopLevelAux (c :: rest) prev depth false stringChar current parts =
                  splitTopLevelAux rest (some c) depth false none (current ++ [c]) parts from by
                simp [splitTopLevelAux, hq, hop, hcl, hc]]
              rw [ih, mergeFirst_specChunks_step _ _ _ _ hcm,
                show splitScanStep ⟨false, stringChar, depth, prev⟩ c =
                  ⟨false, none, depth, some c⟩ from by simp [splitScanStep, hq, hop, hcl]]

/-! ### Character and digit facts (for C3) -/

/-- `Char.ofNat` of a scalar below the surrogate range reads back. -/
theorem toNat_ofNat_of_lt {n : Nat} (h : n < 55296) : (Char.ofNat n).toNat = n := by
  have hv : Nat.isValidChar n := Or.inl h
  rw [Char.ofNat, dif_pos hv]
  rfl

/-- Digit characters are digits. -/
theorem digitChar_isDigit {d : Nat} (h : d < 10) : (digitChar d).isDigit = true := by
  interval_cases d <;> decide

/-- A digit character reads back its value. -/
theorem toNat_digitChar {d : Nat} (h : d < 10) : (digitChar d).toNat = 48 + d :=
  toNat_ofNat_of_lt (by omega)

/-- Every character of `natCharsAux` is a digit. -/
theorem natCharsAux_isDigit : ∀ (fuel n : Nat) (c : Char), c ∈ natCharsAux fuel n →
    c.isDigit = true := by
  intro fuel
  induction fuel with
  | zero => intro n c hc; simp [natCharsAux] at hc
  | succ fuel ih =>
    intro n c hc
    by_cases h : n = 0
    · simp [natCharsAux, h] at hc
    · simp only [natCharsAux, if_neg h, List.mem_append, List.mem_singleton] at hc
      rcases hc with hc | hc
      · exact ih _ _ hc
      · subst hc
        exact digitChar_isDigit (Nat.mod_lt _ (by omega))

/-- Empty digit list for zero, at any fuel. -/
theorem natCharsAux_zero (fuel : Nat) : natCharsAux fuel 0 = [] := by
  cases fuel <;> simp [natCharsAux]

/-- Reading the digit string of `n` back, onto an accumulator. -/
theorem foldl_natCharsAux : ∀ (fuel n acc : Nat), n < 10 ^ fuel →
    List.foldl (fun a c => a * 10 + (c.toNat - 48)) acc (natCharsAux fuel n) =
      acc * 10 ^ (natCharsAux fuel n).length + n := by
  intro fuel
  induction fuel with
  | zero =>
    intro n acc h
    have : n = 0 := by simpa using h
    subst this
    simp [natCharsAux]
  | succ fuel ih =>
    intro n acc h
    by_cases h0 : n = 0
    · subst h0
      simp [natCharsAux]
    · have hdiv : n / 10 < 10 ^ fuel := by
        rw [pow_succ, mul_comm] at h
        exact Nat.div_lt_of_lt_mul h
      simp only [natCharsAux, if_neg h0, List.foldl_append, List.length_append,
        List.foldl_cons, List.foldl_nil, List.length_cons, List.length_nil]
      rw [ih _ acc hdiv, toNat_digitChar (Nat.mod_lt _ (by omega))]
      have h10 : 48 + n % 10 - 48 = n % 10 := by omega
      rw [h10]
      have hdm : n / 10 * 10 + n % 10 = n := by omega
      generalize (natCharsAux fuel (n / 10)).length = L
      conv_rhs => rw [← hdm]
      rw [show L + (0 + 1) = L + 1 from by omega, pow_succ]
      ring

/-- The decimal digit string of `n` reads back to `n`. -/
theorem digitsToNat_natChars (n : Nat) : digitsToNat (natChars n) = n := by
  by_cases h : n = 0
  · subst h; rfl
  · have hlt : n < 10 ^ (n + 1) :=
      lt_of_lt_of_le (Nat.lt_pow_self (by omega) n)
        (Nat.pow_le_pow_right (by omega) (by omega))
    simp only [natChars, if_neg h, digitsToNat]
    rw [foldl_natCharsAux _ _ 0 hlt]
    simp

/-- The digit string of `n` is non-empty with a digit head; the head is
`'0'` only for `n = 0`. -/
theorem natChars_head : ∃ c cs, natChars n = c :: cs ∧ c.isDigit = true ∧
    (n ≠ 0 → c ≠ '0') := by
  by_cases h : n = 0
  · subst h
    exact ⟨'0', [], rfl, by decide, fun hn => absurd rfl hn⟩
  · have key : ∀ (fuel m : Nat), m ≠ 0 → m < 10 ^ fuel →
        ∃ c cs, natCharsAux fuel m = c :: cs ∧ c.isDigit = true ∧ c ≠ '0' := by
      intro fuel
      induction fuel with
      | zero => intro m hm h; exact absurd (by simpa using h) hm
      | succ fuel ih =>
        intro m hm h
        by_cases hdiv : m / 10 = 0
        · have hm10 : m < 10 := by omega
          have hmod : m % 10 = m := Nat.mod_eq_of_lt hm10
          refine ⟨digitChar (m % 10), [], ?_, digitChar_isDigit (by omega), ?_⟩
          · simp [natCharsAux, if_neg hm, hdiv, natCharsAux_zero]
          · intro hc
            have := congrArg Char.toNat hc
            rw [toNat_digitChar (by omega)] at this
            simp at this
            omega
        · have hlt : m / 10 < 10 ^ fuel := by
            rw [pow_succ, mul_comm] at h
            exact Nat.div_lt_of_lt_mul h
          obtain ⟨c, cs, hc, hd, h0⟩ := ih (m / 10) hdiv hlt
          exact ⟨c, cs ++ [digitChar (m % 10)], by simp [natCharsAux, if_neg hm, hc], hd, h0⟩
    have hlt : n < 10 ^ (n + 1) :=
      lt_of_lt_of_le (Nat.lt_pow_self (by omega) n)
        (Nat.pow_le_pow_right (by omega) (by omega))
    obtain ⟨c, cs, hc, hd, h0⟩ := key (n + 1) n h hlt
    exact ⟨c, cs, by simp [natChars, if_neg h, hc], hd, fun _ => h0⟩

/-- The scalar value bounds of a digit character. -/
theorem isDigit_toNat_bounds {c : Char} (h : c.isDigit = true) :
    48 ≤ c.toNat ∧ c.toNat ≤ 57 := by
  simp only [Char.isDigit, Bool.and_eq_true, decide_eq_true_eq, ge_iff_le] at h
  exact ⟨UInt32.le_toNat_of_le (by decide) h.1, UInt32.toNat_le_of_le (by decide) h.2⟩

/-- Digits are not JSON whitespace. -/
theorem isJsonWs_eq_false_of_isDigit {c : Char} (h : c.isDigit = true) :
    isJsonWs c = false := by
  obtain ⟨h1, h2⟩ := isDigit_toNat_bounds h
  simp only [isJsonWs, Bool.or_eq_false_iff, decide_eq_false_iff_not]
  repeat' apply And.intro
  all_goals intro hc; subst hc; exact absurd h1 (by decide)

/-! ### String escaping round trip (for C3) -/

/-- Parsing the escaped form of any character prepends that character. -/
theorem parseStringBody_escChar (c : Char) (X : List Char) :
    parseStringBody (escChar c ++ X) =
      match parseStringBody X with
      | some (l, r) => some (c :: l, r)
      | none => none := by
  by_cases h8 : c.toNat < 32
  · obtain ⟨n, hn, rfl⟩ : ∃ n, n < 32 ∧ c = Char.ofNat n :=
      ⟨c.toNat, h8, (Char.ofNat_toNat c).symm⟩
    interval_cases n <;> (rw [parseStringBody.eq_def]; rfl)
  · by_cases h1 : c = dblQuote
    · subst h1
      rw [parseStringBody.eq_def]
      rfl
    · by_cases h2 : c = '\\'
      · subst h2
        rw [parseStringBody.eq_def]
        rfl
      · have h3 : ¬ (c = '\n') := fun h => h8 (by subst h; decide)
        have h4 : ¬ (c = '\r') := fun h => h8 (by subst h; decide)
        have h5 : ¬ (c = '\t') := fun h => h8 (by subst h; decide)
        have h6 : ¬ (c.toNat = 8) := by omega
        have h7 : ¬ (c.toNat = 12) := by omega
        rw [show escChar c = [c] from by simp [escChar, h1, h2, h3, h4, h5, h6, h7, h8]]
        show parseStringBody (c :: X) = _
        rw [parseStringBody.eq_def]
        simp only [if_neg h1, if_neg h2, if_neg h8]

/-- The escaped content of a string literal parses back to the content. -/
theorem parseStringBody_escChars : ∀ (l : List Char) (rest : List Char),
    parseStringBody (escChars l ++ dblQuote :: rest) = some (l, rest) := by
  intro l
  induction l with
  | nil =>
    intro rest
    show parseStringBody (dblQuote :: rest) = _
    rw [parseStringBody.eq_def]
    rfl
  | cons c l ih =>
    intro rest
    show parseStringBody ((escChar c ++ escChars l) ++ dblQuote :: rest) = _
    rw [List.append_assoc, parseStringBody_escChar, ih]

/-! ### Number round trip (for C3) -/

/-- The first character of a list, if any, is not a digit. -/
def headNotDigit (B : List Char) : Prop := ∀ b bs, B = b :: bs → b.isDigit = false

/-- The first character of a list, if any, cannot extend a number token. -/
def numBoundary (B : List Char) : Prop :=
  ∀ b bs, B = b :: bs → b.isDigit = false ∧ b ≠ '.' ∧ b ≠ 'e' ∧ b ≠ 'E'

/-- A number boundary in particular starts with no digit. -/
theorem numBoundary.headNotDigit {B : List Char} (h : numBoundary B) : headNotDigit B :=
  fun b bs hb => (h b bs hb).1

/-- All characters of `natChars` are digits. -/
theorem natChars_isDigit {n : Nat} : ∀ c ∈ natChars n, c.isDigit = true := by
  by_cases h : n = 0
  · subst h
    intro c hc
    rw [show natChars 0 = ['0'] from rfl, List.mem_singleton] at hc
    subst hc
    decide
  · intro c hc
    simp only [natChars, if_neg h] at hc
    exact natCharsAux_isDigit _ _ _ hc

/-- `takeWhile isDigit` splits a digit prefix off exactly. -/
theorem takeWhile_digits_append (A B : List Char) (hA : ∀ c ∈ A, c.isDigit = true)
    (hB : headNotDigit B) :
    (A ++ B).takeWhile Char.isDigit = A ∧ (A ++ B).dropWhile Char.isDigit = B := by
  induction A with
  | nil =>
    cases hBc : B with
    | nil => simp
    | cons b bs =>
      have := hB b bs hBc
      subst hBc
      simp [List.takeWhile_cons, List.dropWhile_cons, this]
  | cons a A ih =>
    have ha := hA a (by simp)
    have ⟨iht, ihd⟩ := ih (fun c hc => hA c (by simp [hc]))
    simp [List.takeWhile_cons, List.dropWhile_cons, ha, iht, ihd]

/-- `takeDigits` splits the serialized digits of `n` off exactly. -/
theorem takeDigits_natChars (n : Nat) (B : List Char) (hB : headNotDigit B) :
    takeDigits (natChars n ++ B) = (natChars n, B) := by
  have := takeWhile_digits_append (natChars n) B natChars_isDigit hB
  simp [takeDigits, this.1, this.2]

/-- `natDigitsParse` reads the serialized digits of `n` back. -/
theorem natDigitsParse_natChars (n : Nat) (B : List Char) (hB : headNotDigit B) :
    natDigitsParse (natChars n ++ B) = some (n, B) := by
  obtain ⟨c, cs, hc, _, _⟩ := natChars_head (n := n)
  unfold natDigitsParse
  rw [takeDigits_natChars n B hB, hc]
  show some (digitsToNat (c :: cs), B) = some (n, B)
  rw [← hc, digitsToNat_natChars]

/-- A digit character is none of the sign, dot and exponent markers. -/
theorem isDigit_ne {c : Char} (h : c.isDigit = true) :
    c ≠ '+' ∧ c ≠ '-' ∧ c ≠ '.' ∧ c ≠ 'e' ∧ c ≠ 'E' ∧ c ≠ '\\' ∧ c ≠ dblQuote := by
  obtain ⟨h1, h2⟩ := isDigit_toNat_bounds h
  refine ⟨?_, ?_, ?_, ?_, ?_, ?_, ?_⟩ <;>
    first
      | (intro hc; subst hc; exact absurd h1 (by decide))
      | (intro hc; subst hc; exact absurd h2 (by decide))

/-- `parseExpDigits` reads a serialized integer back. -/
theorem parseExpDigits_intChars (e : Int) (B : List Char) (hB : headNotDigit B) :
    parseExpDigits (intChars e ++ B) = some (e, B) := by
  by_cases hm : e < 0
  · rw [show intChars e = '-' :: natChars e.natAbs from by simp [intChars, hm]]
    have step : parseExpDigits (('-' :: natChars e.natAbs) ++ B) =
        (natDigitsParse (natChars e.natAbs ++ B)).map (fun p => (-(p.1 : Int), p.2)) := rfl
    rw [step, natDigitsParse_natChars _ _ hB]
    simp only [Option.map_some']
    rw [show -((e.natAbs : Nat) : Int) = e from by omega]
  · rw [show intChars e = natChars e.toNat from by simp [intChars, hm]]
    obtain ⟨c, cs, hc, hdig, _⟩ := natChars_head (n := e.toNat)
    obtain ⟨hp, hms, _, _, _, _, _⟩ := isDigit_ne hdig
    rw [hc]
    show parseExpDigits (c :: (cs ++ B)) = _
    simp only [parseExpDigits, if_neg hp, if_neg hms]
    rw [show c :: (cs ++ B) = (c :: cs) ++ B from rfl, ← hc,
      natDigitsParse_natChars _ _ hB]
    simp only [Option.map_some']
    rw [show ((e.toNat : Nat) : Int) = e from by omega]

/-- Without an exponent marker ahead, `expPartTail` closes the number. -/
theorem expPartTail_boundary (m k : Nat) (B : List Char) (hB : numBoundary B) :
    expPartTail m k B = some ((m, -(k : Int)), B) := by
  cases hBc : B with
  | nil => rfl
  | cons b bs =>
    obtain ⟨_, _, he, hE⟩ := hB b bs hBc
    simp [expPartTail, he, hE]

/-- At a number boundary, `parseNumTail` closes the number with exponent
zero. -/
theorem parseNumTail_boundary (i : Nat) (B : List Char) (hB : numBoundary B) :
    parseNumTail i B = some ((i, 0), B) := by
  cases hBc : B with
  | nil => rfl
  | cons b bs =>
    obtain ⟨_, hdot, he, hE⟩ := hB b bs hBc
    simp [parseNumTail, hdot, expPartTail, he, hE]

/-- `parseNumTail` reads a serialized exponent part back. -/
theorem parseNumTail_exp (i : Nat) (e : Int) (B : List Char) (hB : headNotDigit B) :
    parseNumTail i ('e' :: (intChars e ++ B)) = some ((i, e), B) := by
  have step : parseNumTail i ('e' :: (intChars e ++ B)) =
      (parseExpDigits (intChars e ++ B)).map (fun p => ((i, p.1 - (0 : Int)), p.2)) := rfl
  rw [step, parseExpDigits_intChars _ _ hB]
  simp

/-- `parseNumMag` reads the serialized digits of `n` and hands the rest
to `parseNumTail`. -/
theorem parseNumMag_natChars (n : Nat) (B : List Char) (hB : headNotDigit B) :
    parseNumMag (natChars n ++ B) = parseNumTail n B := by
  by_cases h : n = 0
  · subst h
    show parseNumMag ('0' :: B) = _
    rfl
  · obtain ⟨c, cs, hc, hdig, h0⟩ := natChars_head (n := n)
    have hc0 : ¬ (c = '0') := h0 h
    rw [hc]
    show parseNumMag (c :: (cs ++ B)) = _
    simp only [parseNumMag, if_neg hc0, if_pos hdig]
    have hcs : ∀ x ∈ cs, x.isDigit = true := by
      intro x hx
      exact natChars_isDigit x (by rw [hc]; simp [hx])
    have ht := takeWhile_digits_append cs B hcs hB
    simp only [takeDigits, ht.1, ht.2]
    rw [show digitsToNat (c :: cs) = n from by rw [← hc, digitsToNat_natChars]]

/-- A serialized model number parses back to itself at any number
boundary. -/
theorem parseNumber_numChars (m e : Int) (B : List Char) (hB : numBoundary B) :
    parseNumber (numChars m e ++ B) = some (.num m e, B) := by
  by_cases hez : e = 0
  · subst hez
    rw [show numChars m 0 = intChars m from by simp [numChars]]
    by_cases hm : m < 0
    · rw [show intChars m = '-' :: natChars m.natAbs from by simp [intChars, hm]]
      have step : parseNumber (('-' :: natChars m.natAbs) ++ B) =
          (parseNumMag (natChars m.natAbs ++ B)).map
            (fun p => (JSONValue.num (-(p.1.1 : Int)) p.1.2, p.2)) := rfl
      rw [step, parseNumMag_natChars _ _ hB.headNotDigit, parseNumTail_boundary _ _ hB]
      simp only [Option.map_some']
      rw [show -((m.natAbs : Nat) : Int) = m from by omega]
    · rw [show intChars m = natChars m.toNat from by simp [intChars, hm]]
      obtain ⟨c, cs, hc, hdig, _⟩ := natChars_head (n := m.toNat)
      obtain ⟨_, hms, _, _, _, _, _⟩ := isDigit_ne hdig
      rw [hc]
      show parseNumber (c :: (cs ++ B)) = _
      simp only [parseNumber, if_neg hms]
      rw [show c :: (cs ++ B) = (c :: cs) ++ B from rfl, ← hc,
        parseNumMag_natChars _ _ hB.headNotDigit, parseNumTail_boundary _ _ hB]
      simp only [Option.map_some']
      rw [show ((m.toNat : Nat) : Int) = m from by omega]
  · rw [show numChars m e ++ B = intChars m ++ ('e' :: (intChars e ++ B)) from by
      simp [numChars, hez, List.append_assoc]]
    have hB2 : headNotDigit ('e' :: (intChars e ++ B)) := by
      intro b bs hb
      injection hb with hb1 _
      subst hb1
      decide
    by_cases hm : m < 0
    · rw [show intChars m = '-' :: natChars m.natAbs from by simp [intChars, hm]]
      have step : parseNumber (('-' :: natChars m.natAbs) ++ ('e' :: (intChars e ++ B))) =
          (parseNumMag (natChars m.natAbs ++ ('e' :: (intChars e ++ B)))).map
            (fun p => (JSONValue.num (-(p.1.1 : Int)) p.1.2, p.2)) := rfl
      rw [step, parseNumMag_natChars _ _ hB2, parseNumTail_exp _ _ _ hB.headNotDigit]
      simp only [Option.map_some']
      rw [show -((m.natAbs : Nat) : Int) = m from by omega]
    · rw [show intChars m = natChars m.toNat from by simp [intChars, hm]]
      obtain ⟨c, cs, hc, hdig, _⟩ := natChars_head (n := m.toNat)
      obtain ⟨_, hms, _, _, _, _, _⟩ := isDigit_ne hdig
      rw [hc]
      show parseNumber (c :: (cs ++ ('e' :: (intChars e ++ B)))) = _
      simp only [parseNumber, if_neg hms]
      rw [show c :: (cs ++ ('e' :: (intChars e ++ B))) =
          (c :: cs) ++ ('e' :: (intChars e ++ B)) from rfl, ← hc,
        parseNumMag_natChars _ _ hB2, parseNumTail_exp _ _ _ hB.headNotDigit]
      simp only [Option.map_some']
      rw [show ((m.toNat : Nat) : Int) = m from by omega]

/-! ### Well-formed values (recursively duplicate-free object keys) -/

/-- No two members share a key. -/
def nodupKeys : List (String × JSONValue) → Bool
  | [] => true
  | (k, _) :: rest => !(rest.any (fun p => p.1 == k)) && nodupKeys rest

mutual
/-- Well-formedness: every object in the value has duplicate-free keys
(decoded values always satisfy this, the host object having one property
per name). -/
def WFb : JSONValue → Bool
  | .null => true
  | .bool _ => true
  | .num _ _ => true
  | .str _ => true
  | .arr l => WFbList l
  | .obj ms => nodupKeys ms && WFbMembers ms

/-- Well-formedness of every element. -/
def WFbList : List JSONValue → Bool
  | [] => true
  | x :: xs => WFb x && WFbList xs

/-- Well-formedness of every member value. -/
def WFbMembers : List (String × JSONValue) → Bool
  | [] => true
  | (_, x) :: xs => WFb x && WFbMembers xs
end

/-- Key membership after a `setKey`. -/
theorem any_setKey (m : List (String × JSONValue)) (k k0 : String) (v : JSONValue) :
    (setKey m k v).any (fun p => p.1 == k0) = ((k == k0) || m.any (fun p => p.1 == k0)) := by
  induction m with
  | nil => simp [setKey]
  | cons p rest ih =>
    obtain ⟨k1, v1⟩ := p
    by_cases h : k1 = k
    · subst h
      simp only [setKey, if_pos rfl, List.any_cons]
      by_cases hk : k1 = k0
      · subst hk; simp
      · simp [show (k1 == k0) = false from by simpa using hk]
    · simp only [setKey, if_neg h, List.any_cons, ih]
      by_cases hk : k1 = k0
      · subst hk; simp
      · simp [show (k1 == k0) = false from by simpa using hk]

/-- `setKey` preserves duplicate-freeness of the keys. -/
theorem nodupKeys_setKey (m : List (String × JSONValue)) (k : String) (v : JSONValue)
    (h : nodupKeys m = true) : nodupKeys (setKey m k v) = true := by
  induction m with
  | nil => simp [setKey, nodupKeys]
  | cons p rest ih =>
    obtain ⟨k1, v1⟩ := p
    simp only [nodupKeys, Bool.and_eq_true, Bool.not_eq_true'] at h
    by_cases hk : k1 = k
    · subst hk
      simp only [setKey, if_pos rfl, nodupKeys, Bool.and_eq_true, Bool.not_eq_true']
      exact ⟨h.1, h.2⟩
    · simp only [setKey, if_neg hk, nodupKeys, Bool.and_eq_true, Bool.not_eq_true']
      refine ⟨?_, ih h.2⟩
      rw [any_setKey]
      simp only [Bool.or_eq_false_iff]
      exact ⟨by simpa using fun he => hk he.symm, h.1⟩

/-- `setKey` preserves well-formedness of the member values. -/
theorem WFbMembers_setKey (m : List (String × JSONValue)) (k : String) (v : JSONValue)
    (hm : WFbMembers m = true) (hv : WFb v = true) : WFbMembers (setKey m k v) = true := by
  induction m with
  | nil => simp [setKey, WFbMembers, hv]
  | cons p rest ih =>
    obtain ⟨k1, v1⟩ := p
    simp only [WFbMembers, Bool.and_eq_true] at hm
    by_cases hk : k1 = k
    · subst hk
      simp only [setKey, if_pos rfl, WFbMembers, Bool.and_eq_true]
      exact ⟨hv, hm.2⟩
    · simp only [setKey, if_neg hk, WFbMembers, Bool.and_eq_true]
      exact ⟨hm.1, ih hm.2⟩

/-- The shape of a successful number parse. -/
theorem parseNumber_shape {cs : List Char} {v : JSONValue} {rest : List Char}
    (h : parseNumber cs = some (v, rest)) : ∃ m e, v = .num m e := by
  cases cs with
  | nil => exact Option.noConfusion h
  | cons c cs2 =>
    simp only [parseNumber] at h
    split at h <;>
      · rw [Option.map_eq_some'] at h
        obtain ⟨p, _, hp⟩ := h
        exact ⟨_, _, (Prod.mk.injEq _ _ _ _ ▸ hp).1.symm⟩

/-- Every value the parser produces is well-formed, as are all element
lists and member lists, provided the member accumulator is. -/
theorem parse_wf : ∀ fuel : Nat,
    (∀ cs v rest, parseVal fuel cs = some (v, rest) → WFb v = true) ∧
    (∀ cs vs rest, parseElems fuel cs = some (vs, rest) → WFbList vs = true) ∧
    (∀ acc cs ms rest, parseMembers fuel acc cs = some (ms, rest) →
      nodupKeys acc = true → WFbMembers acc = true →
      nodupKeys ms = true ∧ WFbMembers ms = true) := by
  intro fuel
  induction fuel with
  | zero =>
    refine ⟨fun cs v rest h => ?_, fun cs vs rest h => ?_, fun acc cs ms rest h => ?_⟩ <;>
      exact Option.noConfusion h
  | succ fuel ih =>
    obtain ⟨ihV, ihE, ihM⟩ := ih
    refine ⟨?_, ?_, ?_⟩
    · intro cs v rest h
      cases cs with
      | nil => exact Option.noConfusion h
      | cons c rest0 =>
        rw [parseVal.eq_def] at h
        simp only at h
        split at h
        · -- string
          split at h
          · injection h with h1
            injection h1 with h2 _
            subst h2
            rfl
          · exact Option.noConfusion h
        · split at h
          · split at h
            · -- empty array
              injection h with h1
              injection h1 with h2 _
              subst h2
              rfl
            · split at h
              · -- parseElems success
                rename_i vs r hE
                injection h with h1
                injection h1 with h2 _
                subst h2
                exact ihE _ _ _ hE
              · exact Option.noConfusion h
          · split at h
            · split at h
              · split at h
                · -- empty object
                  injection h with h1
                  injection h1 with h2 _
                  subst h2
                  rfl
                · split at h
                  · rename_i ms r hM
                    injection h with h1
                    injection h1 with h2 _
                    subst h2
                    have := ihM _ _ _ _ hM rfl rfl
                    show (nodupKeys ms && WFbMembers ms) = true
                    simp [this.1, this.2]
                  · exact Option.noConfusion h
              · exact Option.noConfusion h
            · split at h
              · split at h
                · injection h with h1
                  injection h1 with h2 _
                  subst h2
                  rfl
                · exact Option.noConfusion h
              · split at h
                · split at h
                  · injection h with h1
                    injection h1 with h2 _
                    subst h2
                    rfl
                  · exact Option.noConfusion h
                · split at h
                  · split at h
                    · injection h with h1
                      injection h1 with h2 _
                      subst h2
                      rfl
                    · exact Option.noConfusion h
                  · obtain ⟨m, e, hv⟩ := parseNumber_shape h
                    subst hv
                    rfl
    · intro cs vs rest h
      rw [parseElems.eq_def] at h
      simp only at h
      split at h
      · exact Option.noConfusion h
      · rename_i v r hV
        split at h
        · split at h
          · rename_i vs2 r2 hE
            injection h with h1
            injection h1 with h2 _
            subst h2
            show (WFb v && WFbList vs2) = true
            simp [ihV _ _ _ hV, ihE _ _ _ hE]
          · exact Option.noConfusion h
        · injection h with h1
          injection h1 with h2 _
          subst h2
          show (WFb v && WFbList []) = true
          simp [ihV _ _ _ hV, WFbList]
        · exact Option.noConfusion h
    · intro acc cs ms rest h hnd hwf
      rw [parseMembers.eq_def] at h
      simp only at h
      split at h
      · split at h
        · split at h
          · exact Option.noConfusion h
          · split at h
            · split at h
              · exact Option.noConfusion h
              · rename_i v r4 hV
                split at h
                · exact ihM _ _ _ _ h (nodupKeys_setKey _ _ _ hnd)
                    (WFbMembers_setKey _ _ _ hwf (ihV _ _ _ hV))
                · split at h
                  · injection h with h1
                    injection h1 with h2 _
                    subst h2
                    exact ⟨nodupKeys_setKey _ _ _ hnd,
                      WFbMembers_setKey _ _ _ hwf (ihV _ _ _ hV)⟩
                  · exact Option.noConfusion h
                · exact Option.noConfusion h
            · exact Option.noConfusion h
        · exact Option.noConfusion h
      · exact Option.noConfusion h

/-- Decoded values are well-formed. -/
theorem jsonParse_wf {t : String} {v : JSONValue} (h : jsonParse t = some v) :
    WFb v = true := by
  unfold jsonParse at h
  split at h
  · rename_i v2 rest hp
    split at h
    · injection h with h1
      subst h1
      exact (parse_wf _).1 _ _ _ hp
    · exact Option.noConfusion h
  · exact Option.noConfusion h

/-! ### Serialization shapes (for C3) -/

/-- The serialized characters of the tree built from `v` under key `k`. -/
def nodeChars (v : JSONValue) (k : String) : List Char :=
  (getNodeString (parseJsonStructure v k)).data

/-- The serialized characters of an array's children. -/
def elemsChars (l : List JSONValue) (i : Nat) : List Char :=
  (joinSep ", " (childStrings (structList l i))).data

/-- The serialized characters of an object's members. -/
def membersChars (ms : List (String × JSONValue)) : List Char :=
  (joinSep ", " (memberStrings (structMembers ms))).data

/-- A string literal's characters are its data. -/
theorem mk_data (s : String) : String.mk s.data = s := by
  cases s
  rfl

/-- Serialization of a null node. -/
theorem nodeChars_null (k : String) : nodeChars .null k = ['n', 'u', 'l', 'l'] := by
  simp [nodeChars, parseJsonStructure, getNodeString, JsonNode.value, primToString]

/-- Serialization of a boolean node. -/
theorem nodeChars_bool (b : Bool) (k : String) :
    nodeChars (.bool b) k = if b then ['t', 'r', 'u', 'e'] else ['f', 'a', 'l', 's', 'e'] := by
  cases b <;>
    simp [nodeChars, parseJsonStructure, getNodeString, JsonNode.value, primToString]

/-- Serialization of a number node. -/
theorem nodeChars_num (m e : Int) (k : String) : nodeChars (.num m e) k = numChars m e := by
  simp [nodeChars, parseJsonStructure, getNodeString, JsonNode.value, primToString]

/-- Serialization of a string node. -/
theorem nodeChars_str (s : String) (k : String) : nodeChars (.str s) k = quoteChars s.data := by
  simp [nodeChars, parseJsonStructure, getNodeString, JsonNode.value, primToString]

/-- Serialization of an array node. -/
theorem nodeChars_arr (l : List JSONValue) (k : String) :
    nodeChars (.arr l) k = '[' :: elemsChars l 0 ++ [']'] := by
  simp [nodeChars, parseJsonStructure, getNodeString, elemsChars]

/-- Serialization of an object node. -/
theorem nodeChars_obj (ms : List (String × JSONValue)) (k : String) :
    nodeChars (.obj ms) k = openBrace :: ' ' :: membersChars ms ++ [' ', closeBrace] := by
  simp [nodeChars, parseJsonStructure, getNodeString, membersChars]

/-- The key of a built tree node is the key it was built under. -/
theorem parseJsonStructure_key (x : JSONValue) (k : String) :
    (parseJsonStructure x k).key = k := by
  cases x <;> simp [parseJsonStructure, JsonNode.key]

/-- The children serialization of a one-element array. -/
theorem elemsChars_one (x : JSONValue) (i : Nat) :
    elemsChars [x] i = nodeChars x (String.mk (natChars i)) := by
  simp [elemsChars, structList, childStrings, joinSep, nodeChars]

/-- The children serialization of a longer array unfolds one element. -/
theorem elemsChars_cons_cons (x y : JSONValue) (ys : List JSONValue) (i : Nat) :
    elemsChars (x :: y :: ys) i =
      nodeChars x (String.mk (natChars i)) ++ ',' :: ' ' :: elemsChars (y :: ys) (i + 1) := by
  simp [elemsChars, structList, childStrings, joinSep, nodeChars]

/-- The member serialization of a one-member object. -/
theorem membersChars_one (k : String) (x : JSONValue) :
    membersChars [(k, x)] = quoteChars k.data ++ ':' :: ' ' :: nodeChars x k := by
  simp [membersChars, structMembers, memberStrings, joinSep, nodeChars, parseJsonStructure_key]

/-- The member serialization of a longer object unfolds one member. -/
theorem membersChars_cons_cons (k : String) (x : JSONValue) (p : String × JSONValue)
    (tl : List (String × JSONValue)) :
    membersChars ((k, x) :: p :: tl) =
      quoteChars k.data ++ ':' :: ' ' :: nodeChars x k ++ ',' :: ' ' :: membersChars (p :: tl) := by
  obtain ⟨k2, x2⟩ := p
  simp [membersChars, structMembers, memberStrings, joinSep, nodeChars, parseJsonStructure_key]

/-- Claim C6: the Top-Level Splitter computes the declarative split —
segments between commas at bracket depth zero outside string literals,
each trimmed, with an empty trailing segment dropped — and on
`a:"x,y", b: {c: 1,2}` it yields exactly the two expected segments. -/
theorem splitTopLevel_correct :
    (∀ input : String, splitTopLevel input = splitTopLevelSpec input) ∧
    splitTopLevel "a:\"x,y\", b: \x7bc: 1,2\x7d" = ["a:\"x,y\"", "b: \x7bc: 1,2\x7d"] := by
  constructor
  · intro input
    unfold splitTopLevel splitTopLevelSpec
    rw [splitTopLevelAux_eq_spec, mergeFirst_nil_of_ne _ (specChunks_ne_nil _ _)]
    simp
  · rfl

/-! ### Round trip of the serialized tree (for C3) -/

/-- Empty arrays serialize to no children characters. -/
theorem elemsChars_nil (i : Nat) : elemsChars [] i = [] := by
  simp [elemsChars, structList, childStrings, joinSep]

/-- Empty objects serialize to no member characters. -/
theorem membersChars_nil : membersChars [] = [] := by
  simp [membersChars, structMembers, memberStrings, joinSep]

/-- Skipping whitespace stops at a non-whitespace head. -/
theorem skipWs_cons_of_not_ws {c : Char} (h : isJsonWs c = false) (X : List Char) :
    skipWs (c :: X) = c :: X := by
  simp [skipWs, List.dropWhile_cons, h]

/-- Skipping whitespace passes a whitespace head. -/
theorem skipWs_cons_ws {c : Char} (h : isJsonWs c = true) (X : List Char) :
    skipWs (c :: X) = skipWs X := by
  simp [skipWs, List.dropWhile_cons, h]

/-- A list whose head cannot extend a number is a number boundary. -/
theorem numBoundary_cons {c : Char}
    (h : c.isDigit = false ∧ c ≠ '.' ∧ c ≠ 'e' ∧ c ≠ 'E') (Z : List Char) :
    numBoundary (c :: Z) := by
  intro b bs hb
  injection hb with h1 _
  subst h1
  exact h

/-- The empty list is a number boundary. -/
theorem numBoundary_nil : numBoundary [] := fun b bs hb => List.noConfusion hb

/-- The serialized number starts with a minus sign or a digit. -/
theorem numChars_head (m e : Int) :
    ∃ c cs, numChars m e = c :: cs ∧ (c = '-' ∨ c.isDigit = true) := by
  have hint : ∃ c cs, intChars m = c :: cs ∧ (c = '-' ∨ c.isDigit = true) := by
    by_cases hm : m < 0
    · exact ⟨'-', natChars m.natAbs, by simp [intChars, hm], Or.inl rfl⟩
    · obtain ⟨c, cs, hc, hd, _⟩ := natChars_head (n := m.toNat)
      exact ⟨c, cs, by simp [intChars, hm, hc], Or.inr hd⟩
  obtain ⟨c, cs, hc, hor⟩ := hint
  by_cases he : e = 0
  · exact ⟨c, cs, by simp [numChars, he, hc], hor⟩
  · exact ⟨c, cs ++ 'e' :: intChars e, by simp [numChars, he, hc], hor⟩

/-- A number head is none of the other value dispatch characters. -/
theorem numHead_ne {c : Char} (h : c = '-' ∨ c.isDigit = true) :
    c ≠ dblQuote ∧ c ≠ '[' ∧ c ≠ openBrace ∧ c ≠ 'n' ∧ c ≠ 't' ∧ c ≠ 'f' ∧
      isJsonWs c = false ∧ c ≠ ']' := by
  rcases h with h | h
  · subst h
    exact ⟨by decide, by decide, by decide, by decide, by decide, by decide, by decide, by decide⟩
  · obtain ⟨h1, h2⟩ := isDigit_toNat_bounds h
    refine ⟨?_, ?_, ?_, ?_, ?_, ?_, isJsonWs_eq_false_of_isDigit h, ?_⟩ <;>
      (intro hc; subst hc) <;>
      first
        | exact absurd h1 (by decide)
        | exact absurd h2 (by decide)

/-- A serialized node starts with a non-whitespace character other than a
closing bracket. -/
theorem nodeChars_head (v : JSONValue) (k : String) :
    ∃ c cs, nodeChars v k = c :: cs ∧ isJsonWs c = false ∧ c ≠ ']' := by
  cases v with
  | null => exact ⟨'n', ['u', 'l', 'l'], by rw [nodeChars_null], by decide, by decide⟩
  | bool b =>
    cases b
    · exact ⟨'f', ['a', 'l', 's', 'e'], by rw [nodeChars_bool]; rfl, by decide, by decide⟩
    · exact ⟨'t', ['r', 'u', 'e'], by rw [nodeChars_bool]; rfl, by decide, by decide⟩
  | num m e =>
    obtain ⟨c, cs, hc, hor⟩ := numChars_head m e
    obtain ⟨_, _, _, _, _, _, hw, hne⟩ := numHead_ne hor
    exact ⟨c, cs, by rw [nodeChars_num, hc], hw, hne⟩
  | str s =>
    exact ⟨dblQuote, escChars s.data ++ [dblQuote], by rw [nodeChars_str]; rfl,
      by decide, by decide⟩
  | arr l =>
    exact ⟨'[', elemsChars l 0 ++ [']'], by rw [nodeChars_arr, List.cons_append],
      by decide, by decide⟩
  | obj ms =>
    exact ⟨openBrace, ' ' :: membersChars ms ++ [' ', closeBrace],
      by rw [nodeChars_obj, List.cons_append], by decide, by decide⟩

/-- The serialized children of a non-empty array start like a node. -/
theorem elemsChars_head (x : JSONValue) (xs : List JSONValue) (i : Nat) :
    ∃ c cs, elemsChars (x :: xs) i = c :: cs ∧ isJsonWs c = false ∧ c ≠ ']' := by
  obtain ⟨c, cs0, hc, hw, hne⟩ := nodeChars_head x (String.mk (natChars i))
  cases xs with
  | nil => exact ⟨c, cs0, by rw [elemsChars_one, hc], hw, hne⟩
  | cons y ys =>
    exact ⟨c, cs0 ++ ',' :: ' ' :: elemsChars (y :: ys) (i + 1),
      by rw [elemsChars_cons_cons, hc, List.cons_append], hw, hne⟩

/-- The serialized members of a non-empty object start with a quote. -/
theorem membersChars_head (k : String) (x : JSONValue) (tl : List (String × JSONValue)) :
    ∃ cs, membersChars ((k, x) :: tl) = dblQuote :: cs := by
  cases tl with
  | nil =>
    exact ⟨(escChars k.data ++ [dblQuote]) ++ ':' :: ' ' :: nodeChars x k,
      by rw [membersChars_one]; simp only [quoteChars, List.cons_append]⟩
  | cons q ql =>
    exact ⟨(escChars k.data ++ [dblQuote]) ++
        (':' :: ' ' :: nodeChars x k ++ ',' :: ' ' :: membersChars (q :: ql)),
      by rw [membersChars_cons_cons]; simp [quoteChars]⟩

/-- Assigning a fresh key appends the pair. -/
theorem setKey_fresh (acc : List (String × JSONValue)) (k : String) (v : JSONValue)
    (h : acc.any (fun p => p.1 == k) = false) : setKey acc k v = acc ++ [(k, v)] := by
  induction acc with
  | nil => rfl
  | cons p rest ih =>
    obtain ⟨k1, v1⟩ := p
    simp only [List.any_cons, Bool.or_eq_false_iff] at h
    have hne : ¬ (k1 = k) := by simpa using h.1
    simp [setKey, hne, ih h.2]

/-- Elements of a well-formed element list are well-formed. -/
theorem WFbList_mem : ∀ (l : List JSONValue), WFbList l = true → ∀ x ∈ l, WFb x = true := by
  intro l
  induction l with
  | nil => intro _ x hx; exact absurd hx (List.not_mem_nil x)
  | cons y ys ih =>
    intro h x hx
    simp only [WFbList, Bool.and_eq_true] at h
    rcases List.mem_cons.mp hx with h1 | h1
    · subst h1; exact h.1
    · exact ih h.2 x h1

/-- Values of a well-formed member list are well-formed. -/
theorem WFbMembers_mem : ∀ (ms : List (String × JSONValue)), WFbMembers ms = true →
    ∀ p ∈ ms, WFb p.2 = true := by
  intro ms
  induction ms with
  | nil => intro _ p hp; exact absurd hp (List.not_mem_nil p)
  | cons q ql ih =>
    intro h p hp
    obtain ⟨k1, v1⟩ := q
    simp only [WFbMembers, Bool.and_eq_true] at h
    rcases List.mem_cons.mp hp with h1 | h1
    · subst h1; exact h.1
    · exact ih h.2 p h1

/-- Serialized array input shape: the bracketed children and a tail. -/
theorem arrInput (l : List JSONValue) (k : String) (rest : List Char) :
    nodeChars (.arr l) k ++ rest = '[' :: (elemsChars l 0 ++ (']' :: rest)) := by
  rw [nodeChars_arr]
  simp

/-- Serialized object input shape: the braced members and a tail. -/
theorem objInput (ms : List (String × JSONValue)) (k : String) (rest : List Char) :
    nodeChars (.obj ms) k ++ rest =
      openBrace :: (' ' :: (membersChars ms ++ (' ' :: (closeBrace :: rest)))) := by
  rw [nodeChars_obj]
  simp

/-- Serialized string input shape: a quoted body and a tail. -/
theorem strInput (s : String) (k : String) (rest : List Char) :
    nodeChars (.str s) k ++ rest = dblQuote :: (escChars s.data ++ (dblQuote :: rest)) := by
  rw [nodeChars_str]
  simp [quoteChars]

/-- One-element children input shape. -/
theorem elemsInput_one (x : JSONValue) (i : Nat) (T : List Char) :
    elemsChars [x] i ++ T = nodeChars x (String.mk (natChars i)) ++ T := by
  rw [elemsChars_one]

/-- Longer children input shape. -/
theorem elemsInput_cons (x y : JSONValue) (ys : List JSONValue) (i : Nat) (T : List Char) :
    elemsChars (x :: y :: ys) i ++ T =
      nodeChars x (String.mk (natChars i)) ++
        (',' :: (' ' :: (elemsChars (y :: ys) (i + 1) ++ T))) := by
  rw [elemsChars_cons_cons]
  simp

/-- One-member input shape. -/
theorem membersInput_one (k : String) (x : JSONValue) (T : List Char) :
    membersChars [(k, x)] ++ T =
      dblQuote :: (escChars k.data ++ (dblQuote :: (':' :: (' ' :: (nodeChars x k ++ T))))) := by
  rw [membersChars_one]
  simp [quoteChars]

/-- Longer member input shape. -/
theorem membersInput_cons (k : String) (x : JSONValue) (q : String × JSONValue)
    (ql : List (String × JSONValue)) (T : List Char) :
    membersChars ((k, x) :: q :: ql) ++ T =
      dblQuote :: (escChars k.data ++ (dblQuote :: (':' :: (' ' ::
        (nodeChars x k ++ (',' :: (' ' :: (membersChars (q :: ql) ++ T)))))))) := by
  rw [membersChars_cons_cons]
  simp [quoteChars]

/-- Value dispatch on a quote. -/
theorem parseVal_str (f : Nat) (X : List Char) :
    parseVal (f + 1) (dblQuote :: X) =
      (match parseStringBody X with
        | some (l, r) => some (.str (String.mk l), r)
        | none => none) := by
  rw [parseVal.eq_def]
  rfl

/-- Value dispatch on an opening bracket. -/
theorem parseVal_arr (f : Nat) (X : List Char) :
    parseVal (f + 1) ('[' :: X) =
      (match skipWs X with
        | ']' :: rest3 => some (.arr [], rest3)
        | rest2 =>
            match parseElems f rest2 with
            | some (vs, r) => some (.arr vs, r)
            | none => none) := by
  rw [parseVal.eq_def]
  rfl

/-- Value dispatch on an opening brace. -/
theorem parseVal_obj (f : Nat) (X : List Char) :
    parseVal (f + 1) (openBrace :: X) =
      (match skipWs X with
        | c2 :: rest3 =>
            if c2 = closeBrace then some (.obj [], rest3)
            else
              match parseMembers f [] (c2 :: rest3) with
              | some (ms, r) => some (.obj ms, r)
              | none => none
        | [] => none) := by
  rw [parseVal.eq_def]
  rfl

/-- Value dispatch on the `null` literal. -/
theorem parseVal_null (f : Nat) (r : List Char) :
    parseVal (f + 1) ('n' :: 'u' :: 'l' :: 'l' :: r) = some (.null, r) := by
  rw [parseVal.eq_def]
  rfl

/-- Value dispatch on the `true` literal. -/
theorem parseVal_true (f : Nat) (r : List Char) :
    parseVal (f + 1) ('t' :: 'r' :: 'u' :: 'e' :: r) = some (.bool true, r) := by
  rw [parseVal.eq_def]
  rfl

/-- Value dispatch on the `false` literal. -/
theorem parseVal_false (f : Nat) (r : List Char) :
    parseVal (f + 1) ('f' :: 'a' :: 'l' :: 's' :: 'e' :: r) = some (.bool false, r) := by
  rw [parseVal.eq_def]
  rfl

/-- Value dispatch on any other character: a number token. -/
theorem parseVal_number (f : Nat) (c : Char) (X : List Char)
    (h1 : c ≠ dblQuote) (h2 : c ≠ '[') (h3 : c ≠ openBrace)
    (h4 : c ≠ 'n') (h5 : c ≠ 't') (h6 : c ≠ 'f') :
    parseVal (f + 1) (c :: X) = parseNumber (c :: X) := by
  rw [parseVal.eq_def]
  simp only [if_neg h1, if_neg h2, if_neg h3, if_neg h4, if_neg h5, if_neg h6]

/-- One step of the element list parser. -/
theorem parseElems_step (f : Nat) (X : List Char) :
    parseElems (f + 1) X =
      (match parseVal f X with
        | none => none
        | some (v, rest) =>
            match skipWs rest with
            | ',' :: rest2 =>
                (match parseElems f (skipWs rest2) with
                  | some (vs, r) => some (v :: vs, r)
                  | none => none)
            | ']' :: rest2 => some ([v], rest2)
            | _ => none) := by
  rw [parseElems.eq_def]

/-- One step of the member list parser, on a quote. -/
theorem parseMembers_quote (f : Nat) (acc : List (String × JSONValue)) (X : List Char) :
    parseMembers (f + 1) acc (dblQuote :: X) =
      (match parseStringBody X with
        | none => none
        | some (kChars, rest2) =>
            match skipWs rest2 with
            | ':' :: rest3 =>
                (match parseVal f (skipWs rest3) with
                  | none => none
                  | some (v, rest4) =>
                      let acc2 := setKey acc (String.mk kChars) v
                      match skipWs rest4 with
                      | ',' :: rest5 => parseMembers f acc2 (skipWs rest5)
                      | c5 :: rest5 =>
                          if c5 = closeBrace then some (acc2, rest5) else none
                      | [] => none)
            | _ => none) := by
  rw [parseMembers.eq_def]
  rfl

/-- The round-trip property of one value: its serialized node re-parses
to it before any number-boundary tail. -/
def RTv (v : JSONValue) : Prop :=
  ∀ (k : String) (rest : List Char) (fuel : Nat),
    (nodeChars v k).length < fuel → numBoundary rest →
    parseVal fuel (nodeChars v k ++ rest) = some (v, rest)

/-- The serialized children of a non-empty array of round-tripping
elements re-parse to the element list. -/
theorem parseElems_elemsChars :
    ∀ (l : List JSONValue), l ≠ [] →
    (∀ x ∈ l, RTv x) →
    ∀ (i : Nat) (rest : List Char) (fuel : Nat),
      (elemsChars l i).length + 2 ≤ fuel →
      parseElems fuel (elemsChars l i ++ (']' :: rest)) = some (l, rest) := by
  intro l
  induction l with
  | nil => intro h; exact absurd rfl h
  | cons x xs ih =>
    intro _ hall i rest fuel hfuel
    have hrx := hall x (by simp)
    obtain ⟨f, rfl⟩ : ∃ f, fuel = f + 1 := ⟨fuel - 1, by omega⟩
    obtain ⟨cx, csx, hcx, _, _⟩ := nodeChars_head x (String.mk (natChars i))
    have hlenx : 1 ≤ (nodeChars x (String.mk (natChars i))).length := by
      rw [hcx]; simp
    cases xs with
    | nil =>
      rw [elemsInput_one]
      rw [elemsChars_one] at hfuel
      have hpv := hrx (String.mk (natChars i)) (']' :: rest) f (by omega)
        (numBoundary_cons (by decide) rest)
      rw [parseElems_step, hpv]
      rfl
    | cons y ys =>
      rw [elemsInput_cons]
      rw [elemsChars_cons_cons] at hfuel
      simp only [List.length_append, List.length_cons] at hfuel
      obtain ⟨cy, csy, hcy, hwy, _⟩ := elemsChars_head y ys (i + 1)
      have hleny : 1 ≤ (elemsChars (y :: ys) (i + 1)).length := by
        rw [hcy]; simp
      have hpv := hrx (String.mk (natChars i))
        (',' :: (' ' :: (elemsChars (y :: ys) (i + 1) ++ (']' :: rest)))) f
        (by omega) (numBoundary_cons (by decide) _)
      rw [parseElems_step, hpv]
      have hsk : skipWs (' ' :: (elemsChars (y :: ys) (i + 1) ++ (']' :: rest))) =
          elemsChars (y :: ys) (i + 1) ++ (']' :: rest) := by
        rw [skipWs_cons_ws (by decide), hcy, List.cons_append,
          skipWs_cons_of_not_ws hwy]
      have hrec := ih (by simp) (fun z hz => hall z (List.mem_cons_of_mem x hz))
        (i + 1) rest f (by omega)
      show (match parseElems f
              (skipWs (' ' :: (elemsChars (y :: ys) (i + 1) ++ (']' :: rest)))) with
            | some (vs, r) => some (x :: vs, r)
            | none => none) = some (x :: y :: ys, rest)
      rw [hsk, hrec]

/-- The serialized members of a non-empty object of round-tripping
values, with keys fresh for the accumulator, re-parse by appending the
member list to the accumulator. -/
theorem parseMembers_membersChars :
    ∀ (ms : List (String × JSONValue)), ms ≠ [] →
    nodupKeys ms = true →
    (∀ p ∈ ms, RTv p.2) →
    ∀ (acc : List (String × JSONValue)) (rest : List Char) (fuel : Nat),
      (∀ k0, ms.any (fun p => p.1 == k0) = true → acc.any (fun p => p.1 == k0) = false) →
      (membersChars ms).length + 2 ≤ fuel →
      parseMembers fuel acc (membersChars ms ++ (' ' :: (closeBrace :: rest))) =
        some (acc ++ ms, rest) := by
  intro ms
  induction ms with
  | nil => intro h; exact absurd rfl h
  | cons p tl ih =>
    obtain ⟨k, x⟩ := p
    intro _ hnd hall acc rest fuel hfresh hfuel
    have hrx : RTv x := hall (k, x) (by simp)
    obtain ⟨f, rfl⟩ : ∃ f, fuel = f + 1 := ⟨fuel - 1, by omega⟩
    simp only [nodupKeys, Bool.and_eq_true, Bool.not_eq_true'] at hnd
    obtain ⟨cx, csx, hcx, hwx, _⟩ := nodeChars_head x k
    have hlenx : 1 ≤ (nodeChars x k).length := by
      rw [hcx]; simp
    have hskN : ∀ T : List Char, skipWs (' ' :: (nodeChars x k ++ T)) =
        nodeChars x k ++ T := by
      intro T
      rw [skipWs_cons_ws (by decide), hcx, List.cons_append, skipWs_cons_of_not_ws hwx]
    have hfr : acc.any (fun p => p.1 == k) = false :=
      hfresh k (by simp [List.any_cons])
    cases tl with
    | nil =>
      rw [membersInput_one]
      rw [membersChars_one] at hfuel
      simp only [List.length_append, List.length_cons, quoteChars] at hfuel
      have hpv := hrx k (' ' :: (closeBrace :: rest)) f (by omega)
        (numBoundary_cons (by decide) _)
      rw [parseMembers_quote, parseStringBody_escChars]
      show (match parseVal f (skipWs (' ' :: (nodeChars x k ++ (' ' :: (closeBrace :: rest))))) with
            | none => none
            | some (v, rest4) =>
                let acc2 := setKey acc (String.mk k.data) v
                match skipWs rest4 with
                | ',' :: rest5 => parseMembers f acc2 (skipWs rest5)
                | c5 :: rest5 =>
                    if c5 = closeBrace then some (acc2, rest5) else none
                | [] => none) = some (acc ++ [(k, x)], rest)
      rw [hskN, hpv]
      show some (setKey acc (String.mk k.data) x, rest) = some (acc ++ [(k, x)], rest)
      rw [mk_data, setKey_fresh acc k x hfr]
    | cons q ql =>
      rw [membersInput_cons]
      rw [membersChars_cons_cons] at hfuel
      simp only [List.length_append, List.length_cons, quoteChars] at hfuel
      obtain ⟨csq, hcsq⟩ := membersChars_head q.1 q.2 ql
      have hpv := hrx k
        (',' :: (' ' :: (membersChars (q :: ql) ++ (' ' :: (closeBrace :: rest))))) f
        (by omega) (numBoundary_cons (by decide) _)
      rw [parseMembers_quote, parseStringBody_escChars]
      show (match parseVal f (skipWs (' ' :: (nodeChars x k ++
              (',' :: (' ' :: (membersChars (q :: ql) ++ (' ' :: (closeBrace :: rest)))))))) with
            | none => none
            | some (v, rest4) =>
                let acc2 := setKey acc (String.mk k.data) v
                match skipWs rest4 with
                | ',' :: rest5 => parseMembers f acc2 (skipWs rest5)
                | c5 :: rest5 =>
                    if c5 = closeBrace then some (acc2, rest5) else none
                | [] => none) = some (acc ++ (k, x) :: q :: ql, rest)
      rw [hskN, hpv]
      show parseMembers f (setKey acc (String.mk k.data) x)
          (skipWs (' ' :: (membersChars (q :: ql) ++ (' ' :: (closeBrace :: rest))))) =
        some (acc ++ (k, x) :: q :: ql, rest)
      have hsk2 : skipWs (' ' :: (membersChars (q :: ql) ++ (' ' :: (closeBrace :: rest)))) =
          membersChars (q :: ql) ++ (' ' :: (closeBrace :: rest)) := by
        rw [skipWs_cons_ws (by decide)]
        rw [show (q.1, q.2) = q from rfl] at hcsq
        rw [hcsq, List.cons_append, skipWs_cons_of_not_ws (by decide)]
      rw [mk_data, setKey_fresh acc k x hfr, hsk2]
      have hfresh2 : ∀ k0, (q :: ql).any (fun p => p.1 == k0) = true →
          (acc ++ [(k, x)]).any (fun p => p.1 == k0) = false := by
        intro k0 hk0
        have hacc : acc.any (fun p => p.1 == k0) = false :=
          hfresh k0 (by rw [List.any_cons, hk0]; simp)
        have hkk0 : (k == k0) = false := by
          by_cases he : k = k0
          · exfalso
            have h1 := hnd.1
            rw [he, hk0] at h1
            exact absurd h1 (by decide)
          · simpa using he
        simp [List.any_append, List.any_cons, hacc, hkk0]
      have hrec := ih (by simp) hnd.2 (fun z hz => hall z (List.mem_cons_of_mem _ hz))
        (acc ++ [(k, x)]) rest f hfresh2 (by omega)
      rw [hrec, List.append_assoc]
      rfl

/-- Every well-formed value round-trips through its serialized node. -/
theorem nodeChars_roundtrip : ∀ v : JSONValue, WFb v = true → RTv v := by
  intro v
  induction v using JSONValue.inductionOn with
  | hnull =>
    intro _ k rest fuel hlen hB
    obtain ⟨f, rfl⟩ : ∃ f, fuel = f + 1 := ⟨fuel - 1, by omega⟩
    rw [nodeChars_null]
    exact parseVal_null f rest
  | hbool b =>
    intro _ k rest fuel hlen hB
    obtain ⟨f, rfl⟩ : ∃ f, fuel = f + 1 := ⟨fuel - 1, by omega⟩
    cases b
    · rw [nodeChars_bool]
      exact parseVal_false f rest
    · rw [nodeChars_bool]
      exact parseVal_true f rest
  | hnum m e =>
    intro _ k rest fuel hlen hB
    obtain ⟨f, rfl⟩ : ∃ f, fuel = f + 1 := ⟨fuel - 1, by omega⟩
    rw [nodeChars_num]
    obtain ⟨c, cs, hc, hor⟩ := numChars_head m e
    obtain ⟨h1, h2, h3, h4, h5, h6, _, _⟩ := numHead_ne hor
    rw [hc, List.cons_append, parseVal_number f c (cs ++ rest) h1 h2 h3 h4 h5 h6,
      ← List.cons_append, ← hc, parseNumber_numChars m e rest hB]
  | hstr s =>
    intro _ k rest fuel hlen hB
    obtain ⟨f, rfl⟩ : ∃ f, fuel = f + 1 := ⟨fuel - 1, by omega⟩
    rw [strInput, parseVal_str, parseStringBody_escChars]
  | harr l ih =>
    intro hwf k rest fuel hlen hB
    obtain ⟨f, rfl⟩ : ∃ f, fuel = f + 1 := ⟨fuel - 1, by omega⟩
    rw [nodeChars_arr] at hlen
    simp only [List.length_cons, List.length_append, List.length_singleton,
      List.length_nil] at hlen
    cases l with
    | nil =>
      rw [arrInput, elemsChars_nil, List.nil_append, parseVal_arr]
      rfl
    | cons x xs =>
      have hwf2 : WFbList (x :: xs) = true := hwf
      have hall : ∀ z ∈ x :: xs, RTv z := fun z hz => ih z hz (WFbList_mem _ hwf2 z hz)
      obtain ⟨c, cs0, hc, hw, hne⟩ := elemsChars_head x xs 0
      rw [arrInput, parseVal_arr]
      have hsk : skipWs (elemsChars (x :: xs) 0 ++ (']' :: rest)) =
          c :: (cs0 ++ (']' :: rest)) := by
        rw [hc, List.cons_append, skipWs_cons_of_not_ws hw]
      rw [hsk]
      split
      · rename_i rest3 heq
        injection heq with he1 _
        exact absurd he1 hne
      · rw [show c :: (cs0 ++ (']' :: rest)) = elemsChars (x :: xs) 0 ++ (']' :: rest) from
          by rw [hc, List.cons_append]]
        rw [parseElems_elemsChars (x :: xs) (by simp) hall 0 rest f (by omega)]
  | hobj ms ih =>
    intro hwf k rest fuel hlen hB
    obtain ⟨f, rfl⟩ : ∃ f, fuel = f + 1 := ⟨fuel - 1, by omega⟩
    rw [nodeChars_obj] at hlen
    simp only [List.length_cons, List.length_append, List.length_singleton,
      List.length_nil] at hlen
    have hwf2 : (nodupKeys ms && WFbMembers ms) = true := hwf
    rw [Bool.and_eq_true] at hwf2
    cases ms with
    | nil =>
      rw [objInput, membersChars_nil, List.nil_append, parseVal_obj]
      rfl
    | cons p tl =>
      obtain ⟨pk, px⟩ := p
      have hall : ∀ z ∈ (pk, px) :: tl, RTv z.2 :=
        fun z hz => ih z hz (WFbMembers_mem _ hwf2.2 z hz)
      obtain ⟨csq, hcsq⟩ := membersChars_head pk px tl
      rw [objInput, parseVal_obj]
      have hsk : skipWs (' ' ::
            (membersChars ((pk, px) :: tl) ++ (' ' :: (closeBrace :: rest)))) =
          dblQuote :: (csq ++ (' ' :: (closeBrace :: rest))) := by
        rw [skipWs_cons_ws (by decide), hcsq, List.cons_append,
          skipWs_cons_of_not_ws (by decide)]
      rw [hsk]
      show (match parseMembers f [] (dblQuote :: (csq ++ (' ' :: (closeBrace :: rest)))) with
            | some (ms2, r) => some (JSONValue.obj ms2, r)
            | none => none) = some (JSONValue.obj ((pk, px) :: tl), rest)
      rw [show dblQuote :: (csq ++ (' ' :: (closeBrace :: rest))) =
          membersChars ((pk, px) :: tl) ++ (' ' :: (closeBrace :: rest)) from
        by rw [hcsq, List.cons_append]]
      rw [parseMembers_membersChars ((pk, px) :: tl) (by simp) hwf2.1 hall
        [] rest f (fun k0 _ => rfl) (by omega)]
      show some (JSONValue.obj ([] ++ (pk, px) :: tl), rest) = _
      rw [List.nil_append]

/-! ### The serialized tree is a single line (for C3) -/

/-- Hex digit characters are printable. -/
theorem hexChar_ge (n : Nat) (h : n < 16) : 32 ≤ (hexChar n).toNat := by
  unfold hexChar
  split
  · rw [toNat_ofNat_of_lt (by omega)]
    omega
  · rw [toNat_ofNat_of_lt (by omega)]
    omega

/-- Escaping a character yields only printable characters. -/
theorem escChar_ge (x : Char) : ∀ c ∈ escChar x, 32 ≤ c.toNat := by
  intro c hc
  simp only [escChar] at hc
  split_ifs at hc with h1 h2 h3 h4 h5 h6 h7 h8
  · fin_cases hc <;> decide
  · fin_cases hc <;> decide
  · fin_cases hc <;> decide
  · fin_cases hc <;> decide
  · fin_cases hc <;> decide
  · fin_cases hc <;> decide
  · fin_cases hc <;> decide
  · fin_cases hc
    · decide
    · decide
    · decide
    · decide
    · exact hexChar_ge _ (by omega)
    · exact hexChar_ge _ (Nat.mod_lt _ (by omega))
  · rw [List.mem_singleton] at hc
    subst hc
    omega

/-- Escaped character lists are printable. -/
theorem escChars_ge : ∀ (l : List Char), ∀ c ∈ escChars l, 32 ≤ c.toNat := by
  intro l
  induction l with
  | nil => intro c hc; exact absurd hc (List.not_mem_nil c)
  | cons x xs ih =>
    intro c hc
    rw [escChars] at hc
    rcases List.mem_append.mp hc with h | h
    · exact escChar_ge x c h
    · exact ih c h

/-- String literals are printable. -/
theorem quoteChars_ge (l : List Char) : ∀ c ∈ quoteChars l, 32 ≤ c.toNat := by
  intro c hc
  simp only [quoteChars] at hc
  rcases List.mem_append.mp hc with h | h
  · rcases List.mem_cons.mp h with h1 | h1
    · subst h1; decide
    · exact escChars_ge l c h1
  · rw [List.mem_singleton] at h
    subst h
    decide

/-- Decimal digit strings are printable. -/
theorem natChars_ge (n : Nat) : ∀ c ∈ natChars n, 32 ≤ c.toNat := by
  intro c hc
  have := isDigit_toNat_bounds (natChars_isDigit c hc)
  omega

/-- Integer strings are printable. -/
theorem intChars_ge (i : Int) : ∀ c ∈ intChars i, 32 ≤ c.toNat := by
  intro c hc
  unfold intChars at hc
  split at hc
  · rcases List.mem_cons.mp hc with h | h
    · subst h; decide
    · exact natChars_ge _ c h
  · exact natChars_ge _ c hc

/-- Number strings are printable. -/
theorem numChars_ge (m e : Int) : ∀ c ∈ numChars m e, 32 ≤ c.toNat := by
  intro c hc
  unfold numChars at hc
  split at hc
  · exact intChars_ge m c hc
  · simp only [List.mem_append, List.mem_cons] at hc
    rcases hc with hc | hc | hc
    · exact intChars_ge m c hc
    · subst hc; decide
    · exact intChars_ge e c hc

/-- Children serializations of printable nodes are printable. -/
theorem elemsChars_ge (l : List JSONValue)
    (ih : ∀ x ∈ l, ∀ (k : String), ∀ c ∈ nodeChars x k, 32 ≤ c.toNat) :
    ∀ (i : Nat), ∀ c ∈ elemsChars l i, 32 ≤ c.toNat := by
  induction l with
  | nil =>
    intro i c hc
    rw [elemsChars_nil] at hc
    exact absurd hc (List.not_mem_nil c)
  | cons x xs ihl =>
    intro i c hc
    cases xs with
    | nil =>
      rw [elemsChars_one] at hc
      exact ih x (by simp) _ c hc
    | cons y ys =>
      rw [elemsChars_cons_cons] at hc
      simp only [List.mem_append, List.mem_cons] at hc
      rcases hc with hc | hc | hc | hc
      · exact ih x (by simp) _ c hc
      · subst hc; decide
      · subst hc; decide
      · exact ihl (fun z hz => ih z (List.mem_cons_of_mem x hz)) (i + 1) c hc

/-- Member serializations of printable nodes are printable. -/
theorem membersChars_ge (ms : List (String × JSONValue))
    (ih : ∀ p ∈ ms, ∀ (k : String), ∀ c ∈ nodeChars p.2 k, 32 ≤ c.toNat) :
    ∀ c ∈ membersChars ms, 32 ≤ c.toNat := by
  induction ms with
  | nil =>
    intro c hc
    rw [membersChars_nil] at hc
    exact absurd hc (List.not_mem_nil c)
  | cons p tl ihl =>
    obtain ⟨k, x⟩ := p
    intro c hc
    cases tl with
    | nil =>
      rw [membersChars_one] at hc
      simp only [List.mem_append, List.mem_cons] at hc
      rcases hc with hc | hc | hc | hc
      · exact quoteChars_ge _ c hc
      · subst hc; decide
      · subst hc; decide
      · exact ih (k, x) (by simp) _ c hc
    | cons q ql =>
      rw [membersChars_cons_cons] at hc
      simp only [List.mem_append, List.mem_cons, or_assoc] at hc
      rcases hc with hc | hc | hc | hc | hc | hc | hc <;>
        first
          | (subst hc; decide)
          | exact quoteChars_ge _ c hc
          | exact ih (k, x) (by simp) _ c hc
          | exact ihl (fun z hz => ih z (List.mem_cons_of_mem _ hz)) c hc

/-- Every character of a serialized node is printable: in particular the
serialization never contains a line break. -/
theorem nodeChars_ge : ∀ (v : JSONValue) (k : String), ∀ c ∈ nodeChars v k, 32 ≤ c.toNat := by
  intro v
  induction v using JSONValue.inductionOn with
  | hnull =>
    intro k c hc
    rw [nodeChars_null] at hc
    fin_cases hc <;> decide
  | hbool b =>
    intro k c hc
    cases b
    · rw [nodeChars_bool] at hc
      have hc2 : c ∈ ['f', 'a', 'l', 's', 'e'] := hc
      fin_cases hc2 <;> decide
    · rw [nodeChars_bool] at hc
      have hc2 : c ∈ ['t', 'r', 'u', 'e'] := hc
      fin_cases hc2 <;> decide
  | hnum m e =>
    intro k c hc
    rw [nodeChars_num] at hc
    exact numChars_ge m e c hc
  | hstr s =>
    intro k c hc
    rw [nodeChars_str] at hc
    exact quoteChars_ge _ c hc
  | harr l ih =>
    intro k c hc
    rw [nodeChars_arr] at hc
    simp only [List.cons_append, List.mem_cons, List.mem_append,
      List.mem_singleton] at hc
    rcases hc with hc | hc | hc | hc
    · subst hc; decide
    · exact elemsChars_ge l ih 0 c hc
    · subst hc; decide
    · exact absurd hc (List.not_mem_nil c)
  | hobj ms ih =>
    intro k c hc
    rw [nodeChars_obj] at hc
    simp only [List.cons_append, List.mem_cons, List.mem_append] at hc
    rcases hc with hc | hc | hc | hc | hc | hc
    · subst hc; decide
    · subst hc; decide
    · exact membersChars_ge ms ih c hc
    · subst hc; decide
    · subst hc; decide
    · exact absurd hc (List.not_mem_nil c)

/-- Claim C3: for every value decoded from valid strict-JSON text, the
tree serializer's output re-parses under the strict grammar to a deeply
equal value, and it is a single line (no line feed or carriage return
occurs in it). -/
theorem serialize_buildTree_roundtrip (t : String) (v : JSONValue)
    (h : jsonParse t = some v) :
    jsonParse (getNodeString (parseJsonStructure v "root")) = some v ∧
    ∀ c ∈ (getNodeString (parseJsonStructure v "root")).data, c ≠ '\n' ∧ c ≠ '\r' := by
  have hwf : WFb v = true := jsonParse_wf h
  constructor
  · have hdata : (getNodeString (parseJsonStructure v "root")).data = nodeChars v "root" := rfl
    unfold jsonParse
    rw [hdata]
    obtain ⟨c, cs0, hc, hw, _⟩ := nodeChars_head v "root"
    have hsk : skipWs (nodeChars v "root") = nodeChars v "root" := by
      rw [hc]
      exact skipWs_cons_of_not_ws hw cs0
    have hlen : (getNodeString (parseJsonStructure v "root")).length =
        (nodeChars v "root").length := rfl
    rw [hsk, hlen]
    have hrt := nodeChars_roundtrip v hwf "root" []
      ((nodeChars v "root").length + 1) (by omega) numBoundary_nil
    rw [List.append_nil] at hrt
    rw [hrt]
    rfl
  · intro c hc
    have hge := nodeChars_ge v "root" c hc
    constructor
    · intro he
      subst he
      exact absurd hge (by decide)
    · intro he
      subst he
      exact absurd hge (by decide)

/-- Witness for C3 at a concrete decoded value. -/
theorem serialize_buildTree_roundtrip_witness :
    jsonParse "[1, \x7b\"a\": true\x7d]" =
      some (.arr [.num 1 0, .obj [("a", .bool true)]]) ∧
    (jsonParse (getNodeString (parseJsonStructure
        (.arr [.num 1 0, .obj [("a", .bool true)]]) "root")) =
      some (.arr [.num 1 0, .obj [("a", .bool true)]]) ∧
    ∀ c ∈ (getNodeString (parseJsonStructure
        (.arr [.num 1 0, .obj [("a", .bool true)]]) "root")).data,
      c ≠ '\n' ∧ c ≠ '\r') :=
  ⟨rfl, serialize_buildTree_roundtrip "[1, \x7b\"a\": true\x7d]" _ rfl⟩

end EzJson
